import Mathlib

/-!
# Crawler: a verification development

Shallow embedding of `crawler.go` (package `crawler`): the `Crawler` struct, the
package-level maps `urlIndex` (the Frontier) and `alreadyIndexedUrls` (Visited),
and the methods `Begin`, `Start` and `WasIndexed`.

Go strings are byte sequences.  A `Str` lists the bytes of a Go string, each byte
written as the character with that code, so ASCII text reads as itself.

The parts of the Go standard library that `Start` calls (`strings.HasPrefix`,
`url.Parse`, `(*url.URL).String`) are embedded from the library source
(`net/url`, Go 1.22).  The HTML parser and the DOM query library are external:
a fetched page is represented by what `Start` reads from it.
-/

namespace Crawler

/-- A Go string, as the list of its bytes. -/
abbrev Str := List Char

/-! ## `strings` helpers -/

/-- Go `strings.HasPrefix`. -/
def hasPrefix (s pre : Str) : Bool := pre.isPrefixOf s

/-- Go `strings.HasSuffix`. -/
def hasSuffix (s suf : Str) : Bool := suf.isSuffixOf s

/-- Go `strings.Cut` with a one-byte separator: the text before the first `sep`,
the text after it, and whether `sep` occurs. -/
def cut (sep : Char) : Str → Str × Str × Bool
  | [] => ([], [], false)
  | c :: cs =>
    if c = sep then ([], cs, true)
    else
      let r := cut sep cs
      (c :: r.1, r.2.1, r.2.2)

/-- Go `strings.Count` with a one-byte pattern. -/
def count (sep : Char) (s : Str) : Nat := (s.filter (fun c => c = sep)).length

/-- Go `strings.LastIndex` with a one-byte pattern, as the split around the last
occurrence: `some (s[:i], s[i+1:])`, or `none` when the byte does not occur. -/
def cutLast (sep : Char) : Str → Option (Str × Str)
  | [] => none
  | c :: cs =>
    match cutLast sep cs with
    | some (a, b) => some (c :: a, b)
    | none => if c = sep then some ([], cs) else none

/-- Go `strings.Index`: position of the first occurrence of `pat` in `s`. -/
def index (pat : Str) : Str → Option Nat
  | [] => if pat = [] then some 0 else none
  | c :: cs =>
    if pat.isPrefixOf (c :: cs) then some 0
    else (index pat cs).map (· + 1)

/-- ASCII part of Go `strings.ToLower`. -/
def toLower (s : Str) : Str :=
  s.map (fun c => if 'A' ≤ c ∧ c ≤ 'Z' then Char.ofNat (c.toNat + 32) else c)

/-! ## `net/url` -/

/-- Go `url.encoding`: the part of a URL a string is escaped for. -/
inductive Encoding
  | encodePath
  | encodePathSegment
  | encodeHost
  | encodeZone
  | encodeUserPassword
  | encodeQueryComponent
  | encodeFragment
deriving DecidableEq

open Encoding

/-- Go `url.ishex`. -/
def ishex (c : Char) : Bool :=
  ('0' ≤ c ∧ c ≤ '9') ∨ ('a' ≤ c ∧ c ≤ 'f') ∨ ('A' ≤ c ∧ c ≤ 'F')

/-- Go `url.unhex`. -/
def unhex (c : Char) : Nat :=
  if '0' ≤ c ∧ c ≤ '9' then c.toNat - 48
  else if 'a' ≤ c ∧ c ≤ 'f' then c.toNat - 97 + 10
  else if 'A' ≤ c ∧ c ≤ 'F' then c.toNat - 65 + 10
  else 0

/-- Go `url.shouldEscape`: whether byte `c` must be escaped in the given part. -/
def shouldEscape (c : Char) (mode : Encoding) : Bool :=
  if ('a' ≤ c ∧ c ≤ 'z') ∨ ('A' ≤ c ∧ c ≤ 'Z') ∨ ('0' ≤ c ∧ c ≤ '9') then false
  else if (mode = encodeHost ∨ mode = encodeZone) ∧
      c ∈ ['!', '$', '&', '\'', '(', ')', '*', '+', ',', ';', '=', ':', '[', ']', '<', '>', '"'] then
    false
  else if c ∈ ['-', '_', '.', '~'] then false
  else if c ∈ ['$', '&', '+', ',', '/', ':', ';', '=', '?', '@'] ∧
      mode ∈ [encodePath, encodePathSegment, encodeUserPassword, encodeQueryComponent,
        encodeFragment] then
    match mode with
    | encodePath => c = '?'
    | encodePathSegment => c = '/' ∨ c = ';' ∨ c = ',' ∨ c = '?'
    | encodeUserPassword => c = '@' ∨ c = '/' ∨ c = '?' ∨ c = ':'
    | encodeQueryComponent => true
    | _ => false
  else if mode = encodeFragment ∧ c ∈ ['!', '(', ')', '*'] then false
  else true

/-- Go `url.unescape`: percent-decoding, `none` on an `EscapeError` or
`InvalidHostError`.  The Go code validates in a first pass and decodes in a second;
here both passes run together, which gives the same result. -/
def unescape (mode : Encoding) : Str → Option Str
  | [] => some []
  | '%' :: a :: b :: rest =>
    if ¬ (ishex a ∧ ishex b) then none
    else if mode = encodeHost ∧ unhex a < 8 ∧ ['%', a, b] ≠ ['%', '2', '5'] then none
    else if mode = encodeZone ∧ ['%', a, b] ≠ ['%', '2', '5'] ∧
        Char.ofNat (unhex a * 16 + unhex b) ≠ ' ' ∧
        shouldEscape (Char.ofNat (unhex a * 16 + unhex b)) encodeHost then none
    else (unescape mode rest).map (fun t => Char.ofNat (unhex a * 16 + unhex b) :: t)
  | '%' :: _ => none
  | c :: rest =>
    if (mode = encodeHost ∨ mode = encodeZone) ∧ c.toNat < 128 ∧ shouldEscape c encodeHost then
      none
    else
      (unescape mode rest).map
        (fun t => (if c = '+' ∧ mode = encodeQueryComponent then ' ' else c) :: t)

/-- The digit `"0123456789ABCDEF"[n]` of Go `url.escape`. -/
def upperhex (n : Nat) : Char :=
  if n % 16 < 10 then Char.ofNat (48 + n % 16) else Char.ofNat (55 + n % 16)

/-- Go `url.escape`. -/
def escape (mode : Encoding) (s : Str) : Str :=
  s.flatMap (fun c =>
    if shouldEscape c mode then
      if c = ' ' ∧ mode = encodeQueryComponent then ['+']
      else ['%', upperhex (c.toNat / 16), upperhex (c.toNat % 16)]
    else [c])

/-- Go `url.validEncoded`. -/
def validEncoded (mode : Encoding) (s : Str) : Bool :=
  s.all (fun c =>
    if c ∈ ['!', '$', '&', '\'', '(', ')', '*', '+', ',', ';', '=', ':', '@', '[', ']', '%'] then true
    else ! shouldEscape c mode)

/-- Go `url.stringContainsCTLByte`. -/
def stringContainsCTLByte (s : Str) : Bool :=
  s.any (fun c => c.toNat < 32 ∨ c.toNat = 127)

/-- Go `url.Userinfo`. -/
structure Userinfo where
  username : Str
  password : Str
  passwordSet : Bool
deriving DecidableEq

/-- Go `url.URL`. -/
structure URL where
  Scheme : Str := []
  Opaque : Str := []
  User : Option Userinfo := none
  Host : Str := []
  Path : Str := []
  RawPath : Str := []
  OmitHost : Bool := false
  ForceQuery : Bool := false
  RawQuery : Str := []
  Fragment : Str := []
  RawFragment : Str := []
deriving DecidableEq

/-- Loop of Go `url.getScheme`; `i` is the index of the byte at the head of the
remaining text.  `none` is the error "missing protocol scheme". -/
def getSchemeAux (rawURL : Str) : Nat → Str → Option (Str × Str)
  | _, [] => some ([], rawURL)
  | i, c :: cs =>
    if ('a' ≤ c ∧ c ≤ 'z') ∨ ('A' ≤ c ∧ c ≤ 'Z') then getSchemeAux rawURL (i + 1) cs
    else if ('0' ≤ c ∧ c ≤ '9') ∨ c = '+' ∨ c = '-' ∨ c = '.' then
      if i = 0 then some ([], rawURL) else getSchemeAux rawURL (i + 1) cs
    else if c = ':' then
      if i = 0 then none else some (rawURL.take i, cs)
    else some ([], rawURL)

/-- Go `url.getScheme`: the scheme and the text after its colon. -/
def getScheme (rawURL : Str) : Option (Str × Str) := getSchemeAux rawURL 0 rawURL

/-- Go `url.validOptionalPort`. -/
def validOptionalPort : Str → Bool
  | [] => true
  | c :: ds => c = ':' ∧ ds.all (fun b => '0' ≤ b ∧ b ≤ '9')

/-- Go `url.validUserinfo`. -/
def validUserinfo (s : Str) : Bool :=
  s.all (fun r =>
    ('A' ≤ r ∧ r ≤ 'Z') ∨ ('a' ≤ r ∧ r ≤ 'z') ∨ ('0' ≤ r ∧ r ≤ '9') ∨
    r ∈ ['-', '.', '_', ':', '~', '!', '$', '&', '\'', '(', ')', '*', '+', ',', ';', '=', '%', '@'])

/-- Go `url.parseHost`. -/
def parseHost (host : Str) : Option Str :=
  if hasPrefix host ['['] then
    match cutLast ']' host with
    | none => none
    | some (before, colonPort) =>
      if ¬ validOptionalPort colonPort then none
      else
        match index ['%', '2', '5'] before with
        | some zone =>
          match unescape encodeHost (host.take zone),
                unescape encodeZone (before.drop zone),
                unescape encodeHost (']' :: colonPort) with
          | some host1, some host2, some host3 => some (host1 ++ host2 ++ host3)
          | _, _, _ => none
        | none => unescape encodeHost host
  else
    match cutLast ':' host with
    | some (_, port) =>
      if ¬ validOptionalPort (':' :: port) then none else unescape encodeHost host
    | none => unescape encodeHost host

/-- Go `url.parseAuthority`: user information and host of `user@host`. -/
def parseAuthority (authority : Str) : Option (Option Userinfo × Str) :=
  match cutLast '@' authority with
  | none => (parseHost authority).map (fun host => (none, host))
  | some (userinfo, hostPart) =>
    match parseHost hostPart with
    | none => none
    | some host =>
      if ¬ validUserinfo userinfo then none
      else if ':' ∉ userinfo then
        (unescape encodeUserPassword userinfo).map
          (fun u => (some ⟨u, [], false⟩, host))
      else
        let c := cut ':' userinfo
        match unescape encodeUserPassword c.1, unescape encodeUserPassword c.2.1 with
        | some username, some password => some (some ⟨username, password, true⟩, host)
        | _, _ => none

/-- Go `(*URL).setPath`. -/
def setPath (u : URL) (p : Str) : Option URL :=
  match unescape encodePath p with
  | none => none
  | some path =>
    some { u with Path := path, RawPath := if p = escape encodePath path then [] else p }

/-- Go `(*URL).setFragment`. -/
def setFragment (u : URL) (f : Str) : Option URL :=
  match unescape encodeFragment f with
  | none => none
  | some frag =>
    some { u with Fragment := frag,
                  RawFragment := if f = escape encodeFragment frag then [] else f }

/-- Go `url.parse` with `viaRequest = false`. -/
def parse (rawURL : Str) : Option URL :=
  if stringContainsCTLByte rawURL then none
  else if rawURL = ['*'] then some { Path := ['*'] }
  else
    match getScheme rawURL with
    | none => none
    | some (scheme, rest0) =>
      let force : Bool := hasSuffix rest0 ['?'] ∧ count '?' rest0 = 1
      let rest : Str := if force then rest0.dropLast else (cut '?' rest0).1
      let u : URL :=
        { Scheme := toLower scheme
          ForceQuery := force
          RawQuery := if force then [] else (cut '?' rest0).2.1 }
      if ¬ hasPrefix rest ['/'] ∧ u.Scheme ≠ [] then some { u with Opaque := rest }
      else if ¬ hasPrefix rest ['/'] ∧ ':' ∈ (cut '/' rest).1 then none
      else if (u.Scheme ≠ [] ∨ ¬ hasPrefix rest ['/', '/', '/']) ∧ hasPrefix rest ['/', '/'] then
        let authority := (cut '/' (rest.drop 2)).1
        let rest1 := (rest.drop 2).drop authority.length
        match parseAuthority authority with
        | none => none
        | some (user, host) => setPath { u with User := user, Host := host } rest1
      else if u.Scheme ≠ [] ∧ hasPrefix rest ['/'] then
        setPath { u with OmitHost := true } rest
      else setPath u rest

/-- Go `url.Parse`: `none` stands for a non-nil error. -/
def Parse (rawURL : Str) : Option URL :=
  let c := cut '#' rawURL
  match parse c.1 with
  | none => none
  | some url => if c.2.1 = [] then some url else setFragment url c.2.1

/-- Go `(*URL).EscapedPath`. -/
def URL.EscapedPath (u : URL) : Str :=
  if u.RawPath ≠ [] ∧ validEncoded encodePath u.RawPath ∧
      unescape encodePath u.RawPath = some u.Path then u.RawPath
  else if u.Path = ['*'] then ['*']
  else escape encodePath u.Path

/-- Go `(*URL).EscapedFragment`. -/
def URL.EscapedFragment (u : URL) : Str :=
  if u.RawFragment ≠ [] ∧ validEncoded encodeFragment u.RawFragment ∧
      unescape encodeFragment u.RawFragment = some u.Fragment then u.RawFragment
  else escape encodeFragment u.Fragment

/-- Go `(*Userinfo).String`. -/
def Userinfo.String (ui : Userinfo) : Str :=
  escape encodeUserPassword ui.username ++
    (if ui.passwordSet then ':' :: escape encodeUserPassword ui.password else [])

/-- Go `(*URL).String`: the URL reassembled from its fields. -/
def URL.String (u : URL) : Str :=
  let buf0 : Str := if u.Scheme ≠ [] then u.Scheme ++ [':'] else []
  let buf1 : Str :=
    if u.Opaque ≠ [] then buf0 ++ u.Opaque
    else
      let auth : Str :=
        if u.Scheme ≠ [] ∨ u.Host ≠ [] ∨ u.User.isSome then
          if u.OmitHost ∧ u.Host = [] ∧ u.User.isNone then []
          else
            (if u.Host ≠ [] ∨ u.Path ≠ [] ∨ u.User.isSome then ['/', '/'] else []) ++
            (match u.User with
              | some ui => ui.String ++ ['@']
              | none => []) ++
            (if u.Host ≠ [] then escape encodeHost u.Host else [])
        else []
      let path := u.EscapedPath
      let slash : Str :=
        if path ≠ [] ∧ path.head? ≠ some '/' ∧ u.Host ≠ [] then ['/'] else []
      let dot : Str :=
        if buf0 ++ auth ++ slash = [] ∧ ':' ∈ (cut '/' path).1 then ['.', '/'] else []
      buf0 ++ auth ++ slash ++ dot ++ path
  let buf2 : Str := if u.ForceQuery ∨ u.RawQuery ≠ [] then buf1 ++ ('?' :: u.RawQuery) else buf1
  if u.Fragment ≠ [] then buf2 ++ ('#' :: u.EscapedFragment) else buf2

/-- The text holds none of the bytes that end a part of a URL or make `url.Parse`
refuse it: `#`, `?` and the control bytes. -/
def NoDelims (s : Str) : Prop :=
  ∀ ch ∈ s, ch ≠ '#' ∧ ch ≠ '?' ∧ ¬ (ch.toNat < 32 ∨ ch.toNat = 127)

/-- A byte allowed in a scheme by `getScheme`. -/
def schemeByte (c : Char) : Bool :=
  ('a' ≤ c ∧ c ≤ 'z') ∨ ('A' ≤ c ∧ c ≤ 'Z') ∨ ('0' ≤ c ∧ c ≤ '9') ∨ c = '+' ∨ c = '-' ∨ c = '.'

/-- A letter, the only byte `getScheme` allows a scheme to start with. -/
def letterByte (c : Char) : Bool := ('a' ≤ c ∧ c ≤ 'z') ∨ ('A' ≤ c ∧ c ≤ 'Z')

/-- A text `getScheme` accepts as a scheme: scheme bytes, the first one a letter. -/
def SchemeOK (sch : Str) : Prop :=
  (∀ ch ∈ sch, schemeByte ch = true) ∧ ∃ c t, sch = c :: t ∧ letterByte c = true

/-! ## The crawler -/

/-- What `Start` reads from a parsed page (`*goquery.Document`), in document order:
for every element matching `link[rel='canonical']` its `href` attribute if it has
one, and likewise for every element matching `a`. -/
structure Document where
  canonical : List (Option Str)
  anchors : List (Option Str)
deriving DecidableEq

/-- The value received from `pageContentsBufChan` together with what `html.Parse`
makes of it: an empty buffer (`Fetch` sends `[]byte("")` on every error), a
non-empty buffer on which `html.Parse` returns an error, or a non-empty buffer
parsed into a document. -/
inductive PageContents
  | empty
  | unparsable
  | html (doc : Document)
deriving DecidableEq

/-- Go `PageData`: what is sent to the listener for a parsed page. -/
structure PageData where
  URL : Str
  Document : Document
deriving DecidableEq

/-- Everything outside the program that a crawl depends on.  `fetch n url` is the
page the `n`-th fetch of the run receives for `url` (`n` fetches came before it).
`order n` is the decision of the `n`-th step of a `range` over `urlIndex`, whose
order Go leaves unspecified (see `nextKey`).  `receive n` tells whether the `n`-th
value sent on `OnPageLoadedListener` is ever received (`n` values were received
before it): the send is synchronous, and on a nil channel or one nobody reads it
never completes. -/
structure World where
  fetch : Nat → Str → PageContents
  order : Nat → Option Nat
  receive : Nat → Bool

/-- The `Crawler` struct, the two package-level maps, and a record of the effects
of a run.  A `map[string]bool` that only ever stores `true` is its list of keys.
The channel `OnPageLoadedListener` is the list of values received from it and
`fetched` lists the URLs passed to `Fetch`, both oldest first; `rangeSteps` counts the steps
of `range` loops.  The Go `int` fields are integers: `crawlDepth` is incremented
only while it is below `MaxFetches`, so the increment cannot overflow. -/
structure State where
  MaxFetches : Int
  Origin : Str
  RequestSpaceMs : Int
  IgnoreQueryParams : Bool
  StartURL : Str
  OnPageLoadedListener : List PageData
  crawlDepth : Int
  homepageURL : Option URL
  urlIndex : List Str
  alreadyIndexedUrls : List Str
  fetched : List Str
  rangeSteps : Nat
deriving DecidableEq

/-- How an execution stands. -/
inductive Status
  /-- control is still inside `Start` -/
  | running
  /-- `Start` returned to its caller -/
  | returned
  /-- the process ended: `log.Fatal`, or a nil-pointer dereference -/
  | crashed
  /-- `Start` waits for ever on the send to `OnPageLoadedListener` -/
  | blocked
  /-- a `range` loop was cut off after the allowed number of steps -/
  | outOfFuel
  /-- a nested `Start` was cut off at the allowed nesting depth -/
  | tooDeep
deriving DecidableEq

/-- A status and the state it was reached in. -/
structure Run where
  status : Status
  state : State
deriving DecidableEq

/-- Go `m[k] = true`. -/
def setKey (m : List Str) (k : Str) : List Str := if k ∈ m then m else m ++ [k]

/-- Lines 86-97 of `Start`: on the first crawl, parse the URL and set `homepageURL`
and `Origin`; `none` is `log.Fatal(urlParseErr)`. -/
def firstCrawl (s : State) (urlParam : Str) : Option State :=
  if s.crawlDepth ≤ 0 then
    match Parse urlParam with
    | some homepageURL =>
      some { s with
        homepageURL := some homepageURL,
        Origin := homepageURL.Scheme ++ [':', '/', '/'] ++ homepageURL.Host }
    | none => none
  else some s

/-- Lines 128-137 of `Start`.  `Find` yields the matching elements, `Size` their
number, and `Attr` reads the attribute of the first of them. -/
def canonicalURL (origin urlParam : Str) (doc : Document) : Str :=
  match doc.canonical with
  | [] => urlParam
  | none :: _ => urlParam
  | some attrVal :: _ => origin ++ attrVal

/-- Lines 148-152: the URL an anchor's `href` stands for, `none` when the closure
returns without looking further. -/
def resolveHref (origin hrefVal : Str) : Option Str :=
  if hasPrefix hrefVal ['/'] then some (origin ++ hrefVal)
  else if hasPrefix hrefVal ['h', 't', 't', 'p'] = false then none
  else some hrefVal

/-- Lines 154-168: parse the resolved URL and, when its host is the homepage's,
record it in `urlIndex`. -/
def indexLink (s : State) (hrefVal : Str) : Run :=
  match Parse hrefVal with
  | none => ⟨.crashed, s⟩
  | some hrefURL =>
    match s.homepageURL with
    | none => ⟨.crashed, s⟩
    | some homepageURL =>
      if homepageURL.Host = hrefURL.Host then
        if s.IgnoreQueryParams then
          let stripped : URL := { hrefURL with RawQuery := [] }
          ⟨.running, { s with urlIndex := setKey s.urlIndex stripped.String }⟩
        else ⟨.running, { s with urlIndex := setKey s.urlIndex hrefVal }⟩
      else ⟨.running, s⟩

/-- Lines 146-172: the closure passed to `Each`, for one `a` element. -/
def eachAnchor (s : State) (href : Option Str) : Run :=
  match href with
  | none => ⟨.running, s⟩
  | some hrefVal =>
    match resolveHref s.Origin hrefVal with
    | none => ⟨.running, s⟩
    | some resolved => indexLink s resolved

/-- Line 146: `doc.Find("a").Each(...)`, the closure run on every anchor in turn. -/
def eachAnchors (s : State) : List (Option Str) → Run
  | [] => ⟨.running, s⟩
  | href :: rest =>
    match eachAnchor s href with
    | ⟨.running, s1⟩ => eachAnchors s1 rest
    | r => r

/-- Lines 86-176 of `Start`, entered once both guards have been passed: set the
homepage on the first crawl, count the fetch, fetch and parse the page, notify the
listener, record the visited URLs and collect the links.  The status is `running`
when control reaches line 178, and `blocked` when the send of line 126 is never
received.  Printing and the pause of `RequestSpaceMs` leave the state alone. -/
def visit (w : World) (s : State) (urlParam : Str) : Run :=
  match firstCrawl s urlParam with
  | none => ⟨.crashed, s⟩
  | some s1 =>
    let s2 := { s1 with
      crawlDepth := s1.crawlDepth + 1,
      fetched := s1.fetched ++ [urlParam] }
    match w.fetch s1.fetched.length urlParam with
    | .empty => ⟨.returned, s2⟩
    | .unparsable => ⟨.returned, s2⟩
    | .html doc =>
      if w.receive s2.OnPageLoadedListener.length then
        let visited :=
          setKey (setKey s2.alreadyIndexedUrls urlParam) (canonicalURL s2.Origin urlParam doc)
        let sent := s2.OnPageLoadedListener ++ [⟨urlParam, doc⟩]
        eachAnchors
          { s2 with OnPageLoadedListener := sent, alreadyIndexedUrls := visited }
          doc.anchors
      else ⟨.blocked, s2⟩

/-- The key a `range` over `urlIndex` produces next, `none` when the loop is over.
Go produces every key present when the loop starts exactly once, in an unspecified
order, and may or may not produce a key added while the loop runs.  `snapshot` is
the keys present at the start, `produced` the keys produced so far and `frontier`
the present keys.  A choice `some i` produces the `i`-th key not yet produced
(counting cyclically); `none` ends the loop if every key of the snapshot has been
produced, and otherwise produces the first of them that has not. -/
def nextKey (choice : Option Nat) (snapshot produced frontier : List Str) : Option Str :=
  let cands := frontier.filter (fun k => k ∉ produced)
  match choice with
  | some i => cands[i % cands.length]?
  | none => (cands.filter (fun k => k ∈ snapshot)).head?

/-- Lines 180-182: `for k := range urlIndex { cr.Start(k) }`, with `call` for the
nested `cr.Start`.  The first argument bounds the number of steps. -/
def rangeLoop (w : World) (call : State → Str → Run) (snapshot : List Str) :
    Nat → List Str → State → Run
  | 0, _, s => ⟨.outOfFuel, s⟩
  | l + 1, produced, s =>
    let s1 := { s with rangeSteps := s.rangeSteps + 1 }
    match nextKey (w.order s.rangeSteps) snapshot produced s.urlIndex with
    | none => ⟨.returned, s1⟩
    | some k =>
      match call s1 k with
      | ⟨.returned, s2⟩ => rangeLoop w call snapshot l (k :: produced) s2
      | r => r

/-- `(*Crawler).Start`.  `l` bounds the steps of each `range` loop and the next
argument bounds the nesting of `Start` invocations. -/
def Start (w : World) (l : Nat) : Nat → State → Str → Run
  | 0, s, _ => ⟨.tooDeep, s⟩
  | d + 1, s, urlParam =>
    if s.crawlDepth ≥ s.MaxFetches then ⟨.returned, s⟩
    else if urlParam ∈ s.alreadyIndexedUrls then ⟨.returned, s⟩
    else
      match visit w s urlParam with
      | ⟨.running, s1⟩ =>
        if s1.crawlDepth < s1.MaxFetches then
          rangeLoop w (Start w l d) s1.urlIndex l [] s1
        else ⟨.returned, s1⟩
      | r => r

/-- `(*Crawler).Begin`. -/
def Begin (w : World) (l d : Nat) (s : State) : Run := Start w l d s s.StartURL

/-- `(*Crawler).WasIndexed`. -/
def WasIndexed (s : State) (url : Str) : Bool :=
  if url ∉ s.alreadyIndexedUrls then true else false

/-- A fresh crawler: zero-valued private fields and empty package maps. -/
def newCrawler (maxFetches : Int) (ignoreQueryParams : Bool) (startURL : Str) : State where
  MaxFetches := maxFetches
  Origin := []
  RequestSpaceMs := 0
  IgnoreQueryParams := ignoreQueryParams
  StartURL := startURL
  crawlDepth := 0
  homepageURL := none
  urlIndex := []
  alreadyIndexedUrls := []
  fetched := []
  OnPageLoadedListener := []
  rangeSteps := 0

/-- The execution goes no further, whatever fuel is added: `Start` returned, the
process ended, or `Start` is blocked for ever. -/
def Run.ended (r : Run) : Prop :=
  r.status = .returned ∨ r.status = .crashed ∨ r.status = .blocked

/-- The fetches the budget still allows: `MaxFetches - crawlDepth`, or 0. -/
def State.budget (s : State) : Nat := (s.MaxFetches - s.crawlDepth).toNat

/-- The entry `indexLink` records for a resolved URL `hrefVal` parsed as `hrefURL`. -/
def frontierEntry (ignoreQueryParams : Bool) (hrefVal : Str) (hrefURL : URL) : Str :=
  if ignoreQueryParams then ({ hrefURL with RawQuery := [] } : URL).String else hrefVal

/-- In the words of the specification: `c` is the URL considered for an anchor
with href `h`.  An href starting with `/` is resolved to `origin ++ h`, any other
href starting with `http` is taken as it is, and no URL is considered for an href
starting with neither. -/
def Considered (origin h c : Str) : Prop :=
  (hasPrefix h "/".toList = true ∧ c = origin ++ h) ∨
  (hasPrefix h "/".toList = false ∧ hasPrefix h "http".toList = true ∧ c = h)

/-- Some URL is fetched twice although its first fetch returned an empty result:
`log` is the fetch log of a run in world `w`. -/
def RefetchedAfterFailure (w : World) (log : List Str) : Prop :=
  ∃ i j url, i < j ∧ log[i]? = some url ∧ log[j]? = some url ∧ w.fetch i url = .empty

/-! ## Concrete sites used in the examples -/

/-- The parsed form of `https://x.com/...` with the given path. -/
def xcom (path : Str) : URL :=
  { Scheme := "https".toList, Host := "x.com".toList, Path := path }

/-- A crawler that has fetched its first page from `https://x.com`: the state the
anchors of that page are processed in. -/
def onXcom (ignoreQueryParams : Bool) : State :=
  { newCrawler 5 ignoreQueryParams "https://x.com/".toList with
    Origin := "https://x.com".toList
    homepageURL := some (xcom "/".toList)
    crawlDepth := 1
    fetched := ["https://x.com/".toList]
    OnPageLoadedListener :=
      [⟨"https://x.com/".toList, ⟨[], [some "/a".toList, some "/b".toList]⟩⟩]
    alreadyIndexedUrls := ["https://x.com/".toList] }

/-- A site whose home page links to `/a` and `/b`; `/b` is an empty page and
fetching any other URL fails. -/
def flakySite : World where
  fetch := fun _ url =>
    if url = "https://x.com/".toList then .html ⟨[], [some "/a".toList, some "/b".toList]⟩
    else if url = "https://x.com/b".toList then .html ⟨[], []⟩
    else .empty
  order := fun _ => none
  receive := fun _ => true

/-- A site whose home page links to `/a`, `/b` and `https://other.com/c`. -/
def threeLinks : World where
  fetch := fun _ _ =>
    .html ⟨[], [some "/a".toList, some "/b".toList, some "https://other.com/c".toList]⟩
  order := fun _ => none
  receive := fun _ => true

/-- A site whose home page links to its own host over plain http. -/
def mixedScheme : World where
  fetch := fun _ _ => .html ⟨[], [some "http://x.com/a".toList]⟩
  order := fun _ => none
  receive := fun _ => true

/-- A site whose page `/page1` declares the canonical URL `/p2`. -/
def canonicalSite : World where
  fetch := fun _ _ => .html ⟨[some "/p2".toList], []⟩
  order := fun _ => none
  receive := fun _ => true

/-- A site whose page `/page1` carries two canonical links, `/p1` then `/p2`. -/
def twoCanonicals : World where
  fetch := fun _ _ => .html ⟨[some "/p1".toList, some "/p2".toList], []⟩
  order := fun _ => none
  receive := fun _ => true

/-- The site `threeLinks` with a listener that is nil, or that nobody reads. -/
def deafSite : World where
  fetch := fun _ _ =>
    .html ⟨[], [some "/a".toList, some "/b".toList, some "https://other.com/c".toList]⟩
  order := fun _ => none
  receive := fun _ => false

/-- A site whose home page links to `/a?` and to `/a?x=1`. -/
def queryLinks : World where
  fetch := fun _ _ =>
    .html ⟨[], [some "https://x.com/a?".toList, some "https://x.com/a?x=1".toList]⟩
  order := fun _ => none
  receive := fun _ => true

/-! ## Unfolding lemmas -/

theorem Start_zero (w : World) (l : Nat) (s : State) (url : Str) :
    Start w l 0 s url = ⟨.tooDeep, s⟩ := rfl

theorem Start_succ (w : World) (l d : Nat) (s : State) (url : Str) :
    Start w l (d + 1) s url =
      if s.crawlDepth ≥ s.MaxFetches then ⟨.returned, s⟩
      else if url ∈ s.alreadyIndexedUrls then ⟨.returned, s⟩
      else
        match visit w s url with
        | ⟨.running, s1⟩ =>
          if s1.crawlDepth < s1.MaxFetches then
            rangeLoop w (Start w l d) s1.urlIndex l [] s1
          else ⟨.returned, s1⟩
        | r => r := rfl

theorem rangeLoop_zero (w : World) (call : State → Str → Run) (snap produced : List Str)
    (s : State) : rangeLoop w call snap 0 produced s = ⟨.outOfFuel, s⟩ := rfl

theorem rangeLoop_succ (w : World) (call : State → Str → Run) (snap produced : List Str)
    (l : Nat) (s : State) :
    rangeLoop w call snap (l + 1) produced s =
      match nextKey (w.order s.rangeSteps) snap produced s.urlIndex with
      | none => ⟨.returned, { s with rangeSteps := s.rangeSteps + 1 }⟩
      | some k =>
        match call { s with rangeSteps := s.rangeSteps + 1 } k with
        | ⟨.returned, s2⟩ => rangeLoop w call snap l (k :: produced) s2
        | r => r := rfl

/-- The second guard: a URL already in Visited makes `Start` return at once. -/
theorem Start_visited (w : World) (l d : Nat) (s : State) (url : Str)
    (h : url ∈ s.alreadyIndexedUrls) : Start w l (d + 1) s url = ⟨.returned, s⟩ := by
  simp [Start_succ, h]

/-! ## A proof rule for properties that every step of a crawl preserves -/

/-- A reflexive, transitive relation that holds across every range step and across
every page visit holds across a whole `range` loop, given that it holds across the
nested calls. -/
theorem rangeLoop_rel (w : World) (R : State → State → Prop)
    (hrefl : ∀ s, R s s) (htrans : ∀ a b c, R a b → R b c → R a c)
    (htick : ∀ s, R s { s with rangeSteps := s.rangeSteps + 1 })
    (call : State → Str → Run) (hcall : ∀ s k, R s (call s k).state)
    (snap : List Str) :
    ∀ (l : Nat) (produced : List Str) (s : State),
      R s (rangeLoop w call snap l produced s).state := by
  intro l
  induction l with
  | zero => intro produced s; exact hrefl s
  | succ l ih =>
    intro produced s
    rw [rangeLoop_succ]
    split
    · exact htick s
    · rename_i k _
      have h1 := hcall { s with rangeSteps := s.rangeSteps + 1 } k
      split
      · rename_i s2 heq
        rw [heq] at h1
        exact htrans _ _ _ (htick s) (htrans _ _ _ h1 (ih _ _))
      · exact htrans _ _ _ (htick s) h1

/-- The same rule for `Start`: the relation holds from the state `Start` is entered
in to the state it stops in, whatever the fuel. -/
theorem Start_rel (w : World) (R : State → State → Prop)
    (hrefl : ∀ s, R s s) (htrans : ∀ a b c, R a b → R b c → R a c)
    (htick : ∀ s, R s { s with rangeSteps := s.rangeSteps + 1 })
    (hvisit : ∀ s url, s.crawlDepth < s.MaxFetches → url ∉ s.alreadyIndexedUrls →
      R s (visit w s url).state)
    (l : Nat) :
    ∀ (d : Nat) (s : State) (url : Str), R s (Start w l d s url).state := by
  intro d
  induction d with
  | zero => intro s url; exact hrefl s
  | succ d ih =>
    intro s url
    rw [Start_succ]
    split
    · exact hrefl s
    · rename_i hguard
      split
      · exact hrefl s
      · rename_i hnew
        have hv := hvisit s url (by omega) hnew
        split
        · rename_i s1 heq
          rw [heq] at hv
          split
          · exact htrans _ _ _ hv (rangeLoop_rel w R hrefl htrans htick _ ih _ _ _ _)
          · exact hv
        · exact hv

/-- Once both guards are passed, the relation also holds from the state the page
visit leaves to the state `Start` stops in. -/
theorem Start_rel_visit (w : World) (R : State → State → Prop)
    (hrefl : ∀ s, R s s) (htrans : ∀ a b c, R a b → R b c → R a c)
    (htick : ∀ s, R s { s with rangeSteps := s.rangeSteps + 1 })
    (hvisit : ∀ s url, s.crawlDepth < s.MaxFetches → url ∉ s.alreadyIndexedUrls →
      R s (visit w s url).state)
    (l d : Nat) (s : State) (url : Str)
    (hlt : s.crawlDepth < s.MaxFetches) (hnew : url ∉ s.alreadyIndexedUrls) :
    R (visit w s url).state (Start w l (d + 1) s url).state := by
  rw [Start_succ, if_neg (by omega), if_neg hnew]
  split
  · rename_i s1 heq
    rw [heq]
    split
    · exact rangeLoop_rel w R hrefl htrans htick _
        (Start_rel w R hrefl htrans htick hvisit l d) _ _ _ _
    · exact hrefl _
  · exact hrefl _

/-! ## What one page visit changes -/

theorem subset_setKey (m : List Str) (k : Str) : m ⊆ setKey m k := by
  unfold setKey
  split
  · exact List.Subset.refl m
  · exact List.subset_append_left m [k]

theorem mem_setKey_self (m : List Str) (k : Str) : k ∈ setKey m k := by
  unfold setKey
  split
  · assumption
  · simp

theorem mem_setKey (m : List Str) (k e : Str) : e ∈ setKey m k ↔ e ∈ m ∨ e = k := by
  unfold setKey
  split
  · rename_i h
    constructor
    · intro he; exact Or.inl he
    · rintro (he | he)
      · exact he
      · rw [he]; exact h
  · simp

theorem indexLink_frame (s : State) (c : Str) :
    ∃ idx, (indexLink s c).state = { s with urlIndex := idx } ∧ s.urlIndex ⊆ idx := by
  unfold indexLink
  split
  · exact ⟨s.urlIndex, rfl, List.Subset.refl _⟩
  · split
    · exact ⟨s.urlIndex, rfl, List.Subset.refl _⟩
    · split
      · split
        · exact ⟨_, rfl, subset_setKey _ _⟩
        · exact ⟨_, rfl, subset_setKey _ _⟩
      · exact ⟨s.urlIndex, rfl, List.Subset.refl _⟩

theorem eachAnchor_frame (s : State) (href : Option Str) :
    ∃ idx, (eachAnchor s href).state = { s with urlIndex := idx } ∧ s.urlIndex ⊆ idx := by
  unfold eachAnchor
  split
  · exact ⟨s.urlIndex, rfl, List.Subset.refl _⟩
  · split
    · exact ⟨s.urlIndex, rfl, List.Subset.refl _⟩
    · exact indexLink_frame s _

theorem eachAnchors_frame (hrefs : List (Option Str)) :
    ∀ s : State,
      ∃ idx, (eachAnchors s hrefs).state = { s with urlIndex := idx } ∧ s.urlIndex ⊆ idx := by
  induction hrefs with
  | nil => intro s; exact ⟨s.urlIndex, rfl, List.Subset.refl _⟩
  | cons href rest ih =>
    intro s
    obtain ⟨idx, h1, h2⟩ := eachAnchor_frame s href
    unfold eachAnchors
    split
    · rename_i s1 heq
      rw [heq] at h1
      simp only at h1
      obtain ⟨idx2, h3, h4⟩ := ih s1
      refine ⟨idx2, ?_, ?_⟩
      · rw [h3, h1]
      · intro x hx
        apply h4
        rw [h1]
        exact h2 hx
    · exact ⟨idx, h1, h2⟩

/-- The state `firstCrawl` yields differs from the entry state at most in
`homepageURL` and `Origin`. -/
theorem firstCrawl_frame (s s1 : State) (url : Str) (h : firstCrawl s url = some s1) :
    s1 = { s with homepageURL := s1.homepageURL, Origin := s1.Origin } := by
  unfold firstCrawl at h
  split at h
  · split at h
    · injection h with h; rw [← h]
    · exact absurd h (by simp)
  · injection h with h; rw [← h]

/-- The effect of a page visit on the state: either the start URL does not parse
and nothing changes, or the counter and the fetch log advance by one, and the maps
and the notification log can only grow. -/
theorem visit_frame (w : World) (s : State) (url : Str) :
    (firstCrawl s url = none ∧ visit w s url = ⟨.crashed, s⟩) ∨
    ∃ s1 idx vis notif, firstCrawl s url = some s1 ∧
      (visit w s url).state =
        { s1 with crawlDepth := s1.crawlDepth + 1, fetched := s1.fetched ++ [url],
                  urlIndex := idx, alreadyIndexedUrls := vis, OnPageLoadedListener := notif } ∧
      s.urlIndex ⊆ idx ∧ s.alreadyIndexedUrls ⊆ vis := by
  unfold visit
  split
  · rename_i h; exact Or.inl ⟨h, rfl⟩
  · rename_i s1 h
    right
    have hf := firstCrawl_frame s s1 url h
    have hidx : s1.urlIndex = s.urlIndex := by rw [hf]
    have hvis : s1.alreadyIndexedUrls = s.alreadyIndexedUrls := by rw [hf]
    refine ⟨s1, ?_⟩
    simp only
    split
    · exact ⟨s1.urlIndex, s1.alreadyIndexedUrls, s1.OnPageLoadedListener, h, rfl,
        by rw [hidx]; exact List.Subset.refl _, by rw [hvis]; exact List.Subset.refl _⟩
    · exact ⟨s1.urlIndex, s1.alreadyIndexedUrls, s1.OnPageLoadedListener, h, rfl,
        by rw [hidx]; exact List.Subset.refl _, by rw [hvis]; exact List.Subset.refl _⟩
    · rename_i doc _
      split
      · obtain ⟨idx, h1, h2⟩ := eachAnchors_frame doc.anchors
          { s1 with crawlDepth := s1.crawlDepth + 1, fetched := s1.fetched ++ [url],
                    OnPageLoadedListener := s1.OnPageLoadedListener ++ [⟨url, doc⟩],
                    alreadyIndexedUrls :=
                      setKey (setKey s1.alreadyIndexedUrls url)
                        (canonicalURL s1.Origin url doc) }
        refine ⟨idx, setKey (setKey s1.alreadyIndexedUrls url) (canonicalURL s1.Origin url doc),
          s1.OnPageLoadedListener ++ [⟨url, doc⟩], h, ?_, ?_, ?_⟩
        · rw [h1]
        · rw [← hidx]; exact h2
        · rw [← hvis]
          exact fun x hx => subset_setKey _ _ (subset_setKey _ _ hx)
      · exact ⟨s1.urlIndex, s1.alreadyIndexedUrls, s1.OnPageLoadedListener, h, rfl,
          by rw [hidx]; exact List.Subset.refl _, by rw [hvis]; exact List.Subset.refl _⟩

/-- Field by field: a page visit keeps the configuration, and either ends the
process with nothing changed (the start URL does not parse) or counts exactly one
fetch of `url`. -/
theorem visit_fields (w : World) (s : State) (url : Str) :
    (visit w s url).state.MaxFetches = s.MaxFetches ∧
    (visit w s url).state.IgnoreQueryParams = s.IgnoreQueryParams ∧
    (visit w s url).state.rangeSteps = s.rangeSteps ∧
    (visit w s url = ⟨.crashed, s⟩ ∨
      ((visit w s url).state.crawlDepth = s.crawlDepth + 1 ∧
       (visit w s url).state.fetched = s.fetched ++ [url])) ∧
    s.urlIndex ⊆ (visit w s url).state.urlIndex ∧
    s.alreadyIndexedUrls ⊆ (visit w s url).state.alreadyIndexedUrls := by
  rcases visit_frame w s url with ⟨_, h⟩ | ⟨s1, idx, vis, notif, hfc, hst, hidx, hvis⟩
  · rw [h]
    exact ⟨rfl, rfl, rfl, Or.inl rfl, List.Subset.refl _, List.Subset.refl _⟩
  · have hf := firstCrawl_frame s s1 url hfc
    have e1 : s1.MaxFetches = s.MaxFetches := by rw [hf]
    have e2 : s1.IgnoreQueryParams = s.IgnoreQueryParams := by rw [hf]
    have e3 : s1.rangeSteps = s.rangeSteps := by rw [hf]
    have e4 : s1.crawlDepth = s.crawlDepth := by rw [hf]
    have e5 : s1.fetched = s.fetched := by rw [hf]
    rw [hst]
    simp only [e1, e2, e3, e4, e5]
    exact ⟨trivial, trivial, trivial, Or.inr ⟨trivial, trivial⟩, hidx, hvis⟩

/-- Across any execution of `Start`: `MaxFetches` is untouched, the counter never
decreases, stays within `MaxFetches` if it started so, and rises by the number of
fetches performed. -/
theorem Start_counter (w : World) (l d : Nat) (s : State) (url : Str) :
    (Start w l d s url).state.MaxFetches = s.MaxFetches ∧
    s.crawlDepth ≤ (Start w l d s url).state.crawlDepth ∧
    (s.crawlDepth ≤ s.MaxFetches →
      (Start w l d s url).state.crawlDepth ≤ s.MaxFetches) ∧
    ((Start w l d s url).state.fetched.length : Int) - s.fetched.length =
      (Start w l d s url).state.crawlDepth - s.crawlDepth := by
  refine Start_rel w
    (fun a b => b.MaxFetches = a.MaxFetches ∧ a.crawlDepth ≤ b.crawlDepth ∧
      (a.crawlDepth ≤ a.MaxFetches → b.crawlDepth ≤ a.MaxFetches) ∧
      (b.fetched.length : Int) - a.fetched.length = b.crawlDepth - a.crawlDepth)
    ?_ ?_ ?_ ?_ l d s url
  · intro a
    exact ⟨rfl, le_refl _, fun h => h, by omega⟩
  · rintro a b c ⟨h1, h2, h3, h4⟩ ⟨k1, k2, k3, k4⟩
    refine ⟨by rw [k1, h1], le_trans h2 k2, ?_, by omega⟩
    intro h
    rw [← h1]
    apply k3
    rw [h1]
    exact h3 h
  · intro a
    exact ⟨rfl, le_refl _, fun h => h, by simp⟩
  · intro a u hlt _
    obtain ⟨h1, _, _, h4, _, _⟩ := visit_fields w a u
    rcases h4 with h4 | ⟨h4, h5⟩
    · rw [h4]
      exact ⟨rfl, le_refl _, fun h => h, by simp⟩
    · refine ⟨h1, by omega, fun _ => by omega, ?_⟩
      rw [h4, h5]
      simp

/-- Visited and the Frontier only grow during an execution of `Start`. -/
theorem Start_maps_grow (w : World) (l d : Nat) (s : State) (url : Str) :
    s.alreadyIndexedUrls ⊆ (Start w l d s url).state.alreadyIndexedUrls ∧
    s.urlIndex ⊆ (Start w l d s url).state.urlIndex := by
  refine Start_rel w
    (fun a b => a.alreadyIndexedUrls ⊆ b.alreadyIndexedUrls ∧ a.urlIndex ⊆ b.urlIndex)
    ?_ ?_ ?_ ?_ l d s url
  · intro a; exact ⟨List.Subset.refl _, List.Subset.refl _⟩
  · rintro a b c ⟨h1, h2⟩ ⟨k1, k2⟩
    exact ⟨fun x hx => k1 (h1 hx), fun x hx => k2 (h2 hx)⟩
  · intro a; exact ⟨List.Subset.refl _, List.Subset.refl _⟩
  · intro a u _ _
    obtain ⟨_, _, _, _, h5, h6⟩ := visit_fields w a u
    exact ⟨h6, h5⟩

/-- After the guards, Visited of the final state contains Visited as the page visit
left it. -/
theorem Start_visited_after_visit (w : World) (l d : Nat) (s : State) (url : Str)
    (hlt : s.crawlDepth < s.MaxFetches) (hnew : url ∉ s.alreadyIndexedUrls) :
    (visit w s url).state.alreadyIndexedUrls ⊆
      (Start w l (d + 1) s url).state.alreadyIndexedUrls := by
  refine Start_rel_visit w (fun a b => a.alreadyIndexedUrls ⊆ b.alreadyIndexedUrls)
    ?_ ?_ ?_ ?_ l d s url hlt hnew
  · intro a; exact List.Subset.refl _
  · intro a b c h1 k1; exact fun x hx => k1 (h1 hx)
  · intro a; exact List.Subset.refl _
  · intro a u _ _
    exact (visit_fields w a u).2.2.2.2.2

/-- A page that is fetched and parsed, and received by the listener: the state the
visit leaves. -/
theorem visit_html (w : World) (s s1 : State) (url : Str) (doc : Document)
    (hfc : firstCrawl s url = some s1) (hfetch : w.fetch s.fetched.length url = .html doc)
    (hrecv : w.receive s.OnPageLoadedListener.length = true) :
    visit w s url =
      eachAnchors
        { s1 with crawlDepth := s1.crawlDepth + 1, fetched := s1.fetched ++ [url],
                  OnPageLoadedListener := s1.OnPageLoadedListener ++ [⟨url, doc⟩],
                  alreadyIndexedUrls :=
                    setKey (setKey s1.alreadyIndexedUrls url) (canonicalURL s1.Origin url doc) }
        doc.anchors := by
  have hf := firstCrawl_frame s s1 url hfc
  have e5 : s1.fetched = s.fetched := by rw [hf]
  have e6 : s1.OnPageLoadedListener = s.OnPageLoadedListener := by rw [hf]
  unfold visit
  rw [hfc]
  simp only [e5, e6, hfetch, hrecv, if_true]

/-- A page that is parsed but never received by the listener: `Start` is blocked
with only the fetch counted. -/
theorem visit_blocked (w : World) (s s1 : State) (url : Str) (doc : Document)
    (hfc : firstCrawl s url = some s1) (hfetch : w.fetch s.fetched.length url = .html doc)
    (hrecv : w.receive s.OnPageLoadedListener.length = false) :
    visit w s url =
      ⟨.blocked, { s1 with crawlDepth := s1.crawlDepth + 1,
                           fetched := s1.fetched ++ [url] }⟩ := by
  have hf := firstCrawl_frame s s1 url hfc
  have e5 : s1.fetched = s.fetched := by rw [hf]
  have e6 : s1.OnPageLoadedListener = s.OnPageLoadedListener := by rw [hf]
  unfold visit
  rw [hfc]
  simp [e5, e6, hfetch, hrecv]

/-- A page that is fetched and parsed: Visited as the visit leaves it. -/
theorem visit_html_visited (w : World) (s s1 : State) (url : Str) (doc : Document)
    (hfc : firstCrawl s url = some s1) (hfetch : w.fetch s.fetched.length url = .html doc)
    (hrecv : w.receive s.OnPageLoadedListener.length = true) :
    (visit w s url).state.alreadyIndexedUrls =
      setKey (setKey s.alreadyIndexedUrls url) (canonicalURL s1.Origin url doc) := by
  have hf := firstCrawl_frame s s1 url hfc
  have e : s1.alreadyIndexedUrls = s.alreadyIndexedUrls := by rw [hf]
  rw [visit_html w s s1 url doc hfc hfetch hrecv]
  obtain ⟨idx, h1, _⟩ := eachAnchors_frame doc.anchors
    { s1 with crawlDepth := s1.crawlDepth + 1, fetched := s1.fetched ++ [url],
              OnPageLoadedListener := s1.OnPageLoadedListener ++ [⟨url, doc⟩],
              alreadyIndexedUrls :=
                setKey (setKey s1.alreadyIndexedUrls url) (canonicalURL s1.Origin url doc) }
  rw [h1, e]

/-! ## Link collection -/

theorem indexLink_parsed (s : State) (c : Str) (u home : URL)
    (hp : Parse c = some u) (hh : s.homepageURL = some home) :
    indexLink s c =
      if home.Host = u.Host then
        ⟨.running,
          { s with urlIndex := setKey s.urlIndex (frontierEntry s.IgnoreQueryParams c u) }⟩
      else ⟨.running, s⟩ := by
  unfold indexLink frontierEntry
  rw [hp, hh]
  simp only
  split
  · split <;> rfl
  · rfl

theorem indexLink_unparsable (s : State) (c : Str) (hp : Parse c = none) :
    indexLink s c = ⟨.crashed, s⟩ := by
  unfold indexLink
  rw [hp]

/-- Every entry `Each` adds to the Frontier is the entry of a URL whose host is the
homepage's. -/
theorem eachAnchors_scope (home : URL) (hrefs : List (Option Str)) :
    ∀ s : State, s.homepageURL = some home →
      ∀ e ∈ (eachAnchors s hrefs).state.urlIndex,
        e ∈ s.urlIndex ∨
        ∃ c u, Parse c = some u ∧ u.Host = home.Host ∧
          e = frontierEntry s.IgnoreQueryParams c u := by
  induction hrefs with
  | nil => intro s _ e he; exact Or.inl he
  | cons href rest ih =>
    intro s hh e he
    have step : ∀ e ∈ (eachAnchor s href).state.urlIndex,
        e ∈ s.urlIndex ∨
        ∃ c u, Parse c = some u ∧ u.Host = home.Host ∧
          e = frontierEntry s.IgnoreQueryParams c u := by
      intro e he
      unfold eachAnchor at he
      split at he
      · exact Or.inl he
      · split at he
        · exact Or.inl he
        · rename_i c _
          cases hp : Parse c with
          | none =>
            rw [indexLink_unparsable s c hp] at he
            exact Or.inl he
          | some u =>
            rw [indexLink_parsed s c u home hp hh] at he
            split at he
            · rename_i hhost
              simp only at he
              rcases (mem_setKey _ _ _).1 he with h | h
              · exact Or.inl h
              · exact Or.inr ⟨c, u, hp, hhost.symm, h⟩
            · exact Or.inl he
    obtain ⟨idx, h1, _⟩ := eachAnchor_frame s href
    unfold eachAnchors at he
    split at he
    · rename_i s1 heq
      rw [heq] at h1 step
      simp only at h1 step
      have hh1 : s1.homepageURL = some home := by rw [h1]; exact hh
      have hq1 : s1.IgnoreQueryParams = s.IgnoreQueryParams := by rw [h1]
      rcases ih s1 hh1 e he with h | h
      · exact step e h
      · rw [hq1] at h; exact Or.inr h
    · exact step e he

/-- The code's `resolveHref` yields exactly the considered URL. -/
theorem resolveHref_iff (origin h c : Str) :
    resolveHref origin h = some c ↔ Considered origin h c := by
  have e1 : ("/".toList : Str) = ['/'] := rfl
  have e2 : ("http".toList : Str) = ['h', 't', 't', 'p'] := rfl
  unfold resolveHref Considered
  rw [e1, e2]
  cases h1 : hasPrefix h ['/'] <;> cases h2 : hasPrefix h ['h', 't', 't', 'p'] <;>
    simp [eq_comm]

/-- The frame of one anchor, as equalities. -/
theorem eachAnchor_keeps (s : State) (href : Option Str) :
    (eachAnchor s href).state.homepageURL = s.homepageURL ∧
    (eachAnchor s href).state.Origin = s.Origin ∧
    (eachAnchor s href).state.IgnoreQueryParams = s.IgnoreQueryParams := by
  obtain ⟨idx, h1, _⟩ := eachAnchor_frame s href
  rw [h1]
  exact ⟨rfl, rfl, rfl⟩

/-- When every considered URL of the page parses, `Each` runs through all anchors,
and the Frontier it leaves holds, besides what it held, exactly the entries of the
anchors whose considered URL parses with the homepage's host. -/
theorem eachAnchors_exact (home : URL) (hrefs : List (Option Str)) :
    ∀ s : State, s.homepageURL = some home →
      (∀ h c, some h ∈ hrefs → resolveHref s.Origin h = some c → Parse c ≠ none) →
      (eachAnchors s hrefs).status = .running ∧
      ∀ e, e ∈ (eachAnchors s hrefs).state.urlIndex ↔
        (e ∈ s.urlIndex ∨
         ∃ h c u, some h ∈ hrefs ∧ resolveHref s.Origin h = some c ∧ Parse c = some u ∧
           u.Host = home.Host ∧ e = frontierEntry s.IgnoreQueryParams c u) := by
  induction hrefs with
  | nil =>
    intro s _ _
    refine ⟨rfl, fun e => ⟨fun he => Or.inl he, ?_⟩⟩
    rintro (he | ⟨h, c, u, hm, _⟩)
    · exact he
    · simp at hm
  | cons href rest ih =>
    intro s hh hall
    -- the first anchor
    have hstep : (eachAnchor s href).status = .running ∧
        ∀ e, e ∈ (eachAnchor s href).state.urlIndex ↔
          (e ∈ s.urlIndex ∨
           ∃ h c u, href = some h ∧ resolveHref s.Origin h = some c ∧ Parse c = some u ∧
             u.Host = home.Host ∧ e = frontierEntry s.IgnoreQueryParams c u) := by
      cases href with
      | none =>
        refine ⟨rfl, fun e => ⟨fun he => Or.inl he, ?_⟩⟩
        rintro (he | ⟨h, c, u, hm, _⟩)
        · exact he
        · simp at hm
      | some h =>
        cases hr : resolveHref s.Origin h with
        | none =>
          have e0 : eachAnchor s (some h) = ⟨.running, s⟩ := by simp [eachAnchor, hr]
          rw [e0]
          refine ⟨rfl, fun e => ⟨fun he => Or.inl he, ?_⟩⟩
          rintro (he | ⟨h2, c, u, hm, hc, _⟩)
          · exact he
          · injection hm with hm
            rw [← hm, hr] at hc
            simp at hc
        | some c =>
          have e0 : eachAnchor s (some h) = indexLink s c := by simp [eachAnchor, hr]
          cases hp : Parse c with
          | none => exact absurd hp (hall h c (List.mem_cons_self _ _) hr)
          | some u =>
            rw [e0, indexLink_parsed s c u home hp hh]
            by_cases hhost : home.Host = u.Host
            · rw [if_pos hhost]
              refine ⟨rfl, fun e => ?_⟩
              simp only
              rw [mem_setKey]
              constructor
              · rintro (he | he)
                · exact Or.inl he
                · exact Or.inr ⟨h, c, u, rfl, hr, hp, hhost.symm, he⟩
              · rintro (he | ⟨h2, c2, u2, hm, hc, hp2, _, he⟩)
                · exact Or.inl he
                · injection hm with hm
                  subst hm
                  rw [hr] at hc
                  injection hc with hc
                  subst hc
                  rw [hp] at hp2
                  injection hp2 with hp2
                  subst hp2
                  exact Or.inr he
            · rw [if_neg hhost]
              refine ⟨rfl, fun e => ⟨fun he => Or.inl he, ?_⟩⟩
              rintro (he | ⟨h2, c2, u2, hm, hc, hp2, hh2, _⟩)
              · exact he
              · injection hm with hm
                subst hm
                rw [hr] at hc
                injection hc with hc
                subst hc
                rw [hp] at hp2
                injection hp2 with hp2
                subst hp2
                exact absurd hh2.symm hhost
    obtain ⟨k1, k2, k3⟩ := eachAnchor_keeps s href
    obtain ⟨hst, hmem⟩ := hstep
    unfold eachAnchors
    generalize eachAnchor s href = r at k1 k2 k3 hst hmem
    obtain ⟨st, s1⟩ := r
    simp only at k1 k2 k3 hst hmem
    subst hst
    simp only
    have hall1 : ∀ h c, some h ∈ rest → resolveHref s1.Origin h = some c → Parse c ≠ none := by
      intro h c hm hc
      rw [k2] at hc
      exact hall h c (List.mem_cons_of_mem _ hm) hc
    obtain ⟨i1, i2⟩ := ih s1 (by rw [k1]; exact hh) hall1
    refine ⟨i1, fun e => ?_⟩
    rw [i2 e, hmem e, k2, k3]
    constructor
    · rintro ((he | ⟨h, c, u, hm, rest1⟩) | ⟨h, c, u, hm, rest1⟩)
      · exact Or.inl he
      · exact Or.inr ⟨h, c, u, by rw [hm]; exact List.mem_cons_self _ _, rest1⟩
      · exact Or.inr ⟨h, c, u, List.mem_cons_of_mem _ hm, rest1⟩
    · rintro (he | ⟨h, c, u, hm, rest1⟩)
      · exact Or.inl (Or.inl he)
      · rcases List.mem_cons.1 hm with hm | hm
        · exact Or.inl (Or.inr ⟨h, c, u, hm.symm, rest1⟩)
        · exact Or.inr ⟨h, c, u, hm, rest1⟩

/-- A considered URL that does not parse ends the process during `Each`. -/
theorem eachAnchors_crash (home : URL) (hrefs : List (Option Str)) :
    ∀ s : State, s.homepageURL = some home →
      (∃ h c, some h ∈ hrefs ∧ resolveHref s.Origin h = some c ∧ Parse c = none) →
      (eachAnchors s hrefs).status = .crashed := by
  induction hrefs with
  | nil =>
    rintro s _ ⟨h, c, hm, _⟩
    simp at hm
  | cons href rest ih =>
    rintro s hh ⟨h, c, hm, hc, hp⟩
    obtain ⟨k1, k2, _⟩ := eachAnchor_keeps s href
    have hhere : href = some h → eachAnchor s href = ⟨.crashed, s⟩ := by
      intro e
      subst e
      simp only [eachAnchor, hc]
      exact indexLink_unparsable s c hp
    have hst : (eachAnchor s href).status = .running ∨
        (eachAnchor s href).status = .crashed := by
      unfold eachAnchor
      split
      · exact Or.inl rfl
      · split
        · exact Or.inl rfl
        · unfold indexLink
          split
          · exact Or.inr rfl
          · split
            · exact Or.inr rfl
            · split
              · split <;> exact Or.inl rfl
              · exact Or.inl rfl
    unfold eachAnchors
    generalize eachAnchor s href = r at k1 k2 hhere hst
    obtain ⟨st, s1⟩ := r
    simp only at k1 k2 hst
    rcases hst with hst | hst
    · subst hst
      simp only
      rcases List.mem_cons.1 hm with hm | hm
      · have := hhere hm.symm
        simp at this
      · exact ih s1 (by rw [k1]; exact hh) ⟨h, c, hm, by rw [k2]; exact hc, hp⟩
    · subst hst
      rfl

/-- After the guards, the Frontier of the final state contains the Frontier as the
page visit left it. -/
theorem Start_frontier_after_visit (w : World) (l d : Nat) (s : State) (url : Str)
    (hlt : s.crawlDepth < s.MaxFetches) (hnew : url ∉ s.alreadyIndexedUrls) :
    (visit w s url).state.urlIndex ⊆ (Start w l (d + 1) s url).state.urlIndex := by
  refine Start_rel_visit w (fun a b => a.urlIndex ⊆ b.urlIndex)
    ?_ ?_ ?_ ?_ l d s url hlt hnew
  · intro a; exact List.Subset.refl _
  · intro a b c h1 k1; exact fun x hx => k1 (h1 hx)
  · intro a; exact List.Subset.refl _
  · intro a u _ _
    exact (visit_fields w a u).2.2.2.2.1

/-- A page visit made with homepage `home` keeps it, counts one fetch, and adds to
the Frontier only entries of URLs on the homepage's host. -/
theorem visit_scope (w : World) (home : URL) (s s1 : State) (url : Str)
    (hfc : firstCrawl s url = some s1) (hs1 : s1.homepageURL = some home) :
    (visit w s url).state.homepageURL = some home ∧
    (visit w s url).state.crawlDepth = s.crawlDepth + 1 ∧
    (visit w s url).state.IgnoreQueryParams = s.IgnoreQueryParams ∧
    ∀ e ∈ (visit w s url).state.urlIndex,
      e ∈ s.urlIndex ∨
      ∃ c u, Parse c = some u ∧ u.Host = home.Host ∧
        e = frontierEntry s.IgnoreQueryParams c u := by
  have hf := firstCrawl_frame s s1 url hfc
  have e1 : s1.crawlDepth = s.crawlDepth := by rw [hf]
  have e2 : s1.urlIndex = s.urlIndex := by rw [hf]
  have e3 : s1.IgnoreQueryParams = s.IgnoreQueryParams := by rw [hf]
  have e5 : s1.fetched = s.fetched := by rw [hf]
  have hfail : ∀ pc, w.fetch s.fetched.length url = pc → (∀ doc, pc ≠ .html doc) →
      visit w s url =
        ⟨.returned, { s1 with crawlDepth := s1.crawlDepth + 1,
                              fetched := s1.fetched ++ [url] }⟩ := by
    intro pc hpc hne
    unfold visit
    rw [hfc]
    cases pc with
    | empty => simp only [e5, hpc]
    | unparsable => simp only [e5, hpc]
    | html doc => exact absurd rfl (hne doc)
  cases hfetch : w.fetch s.fetched.length url with
  | empty =>
    rw [hfail _ hfetch (by intro doc; simp)]
    exact ⟨hs1, by simp [e1], e3, fun e he => Or.inl (by simpa [e2] using he)⟩
  | unparsable =>
    rw [hfail _ hfetch (by intro doc; simp)]
    exact ⟨hs1, by simp [e1], e3, fun e he => Or.inl (by simpa [e2] using he)⟩
  | html doc =>
    cases hrecv : w.receive s.OnPageLoadedListener.length with
    | false =>
      rw [visit_blocked w s s1 url doc hfc hfetch hrecv]
      exact ⟨hs1, by simp [e1], e3, fun e he => Or.inl (by simpa [e2] using he)⟩
    | true =>
    rw [visit_html w s s1 url doc hfc hfetch hrecv]
    have hsc := eachAnchors_scope home doc.anchors
      { s1 with crawlDepth := s1.crawlDepth + 1, fetched := s1.fetched ++ [url],
                OnPageLoadedListener := s1.OnPageLoadedListener ++ [⟨url, doc⟩],
                alreadyIndexedUrls :=
                  setKey (setKey s1.alreadyIndexedUrls url) (canonicalURL s1.Origin url doc) }
      hs1
    obtain ⟨idx, h1, _⟩ := eachAnchors_frame doc.anchors
      { s1 with crawlDepth := s1.crawlDepth + 1, fetched := s1.fetched ++ [url],
                OnPageLoadedListener := s1.OnPageLoadedListener ++ [⟨url, doc⟩],
                alreadyIndexedUrls :=
                  setKey (setKey s1.alreadyIndexedUrls url) (canonicalURL s1.Origin url doc) }
    refine ⟨?_, ?_, ?_, ?_⟩
    · rw [h1]; exact hs1
    · rw [h1]; simp [e1]
    · rw [h1]; exact e3
    · intro e he
      have := hsc e he
      simpa [e2, e3] using this

/-- On the first crawl of a URL that parses, `firstCrawl` sets the homepage. -/
theorem firstCrawl_first (s : State) (url : Str) (home : URL)
    (h0 : s.crawlDepth ≤ 0) (hp : Parse url = some home) :
    firstCrawl s url =
      some { s with homepageURL := some home,
                    Origin := home.Scheme ++ [':', '/', '/'] ++ home.Host } := by
  unfold firstCrawl
  rw [if_pos h0, hp]

/-! ## Termination -/

/-- With more fuel, a `range` loop that came to an end gives the same result. -/
theorem rangeLoop_stable (w : World) (call call2 : State → Str → Run)
    (hcall : ∀ s k, (call s k).ended → call2 s k = call s k) (snap : List Str) :
    ∀ (l l2 : Nat) (produced : List Str) (s : State), l ≤ l2 →
      (rangeLoop w call snap l produced s).ended →
      rangeLoop w call2 snap l2 produced s = rangeLoop w call snap l produced s := by
  intro l
  induction l with
  | zero =>
    intro l2 produced s _ h
    rcases h with h | h | h <;> simp [rangeLoop_zero] at h
  | succ l ih =>
    intro l2 produced s hle h
    obtain ⟨m, rfl⟩ : ∃ m, l2 = m + 1 := ⟨l2 - 1, by omega⟩
    rw [rangeLoop_succ] at h ⊢
    rw [rangeLoop_succ]
    cases hk : nextKey (w.order s.rangeSteps) snap produced s.urlIndex with
    | none => rfl
    | some k =>
      rw [hk] at h
      simp only at h ⊢
      have hc := hcall { s with rangeSteps := s.rangeSteps + 1 } k
      generalize call { s with rangeSteps := s.rangeSteps + 1 } k = r at h hc ⊢
      obtain ⟨st, s2⟩ := r
      cases st with
      | returned =>
        simp only at h ⊢
        rw [hc (Or.inl rfl)]
        simp only
        exact ih m (k :: produced) s2 (by omega) h
      | crashed =>
        rw [hc (Or.inr (Or.inl rfl))]
      | blocked =>
        rw [hc (Or.inr (Or.inr rfl))]
      | running => rcases h with h | h | h <;> simp at h
      | outOfFuel => rcases h with h | h | h <;> simp at h
      | tooDeep => rcases h with h | h | h <;> simp at h

/-- With more fuel of either kind, a `Start` that came to an end gives the same
result. -/
theorem Start_stable (w : World) (l l2 : Nat) (hl : l ≤ l2) :
    ∀ (d d2 : Nat) (s : State) (url : Str), d ≤ d2 →
      (Start w l d s url).ended → Start w l2 d2 s url = Start w l d s url := by
  intro d
  induction d with
  | zero =>
    intro d2 s url _ h
    rcases h with h | h | h <;> simp [Start_zero] at h
  | succ d ih =>
    intro d2 s url hle h
    obtain ⟨m, rfl⟩ : ∃ m, d2 = m + 1 := ⟨d2 - 1, by omega⟩
    rw [Start_succ] at h ⊢
    rw [Start_succ]
    split
    · rfl
    · split
      · rfl
      · rename_i h1 h2
        rw [if_neg h1, if_neg h2] at h
        generalize visit w s url = r at h ⊢
        obtain ⟨st, s1⟩ := r
        cases st with
        | running =>
          simp only at h ⊢
          split
          · rename_i h3
            rw [if_pos h3] at h
            exact rangeLoop_stable w (Start w l d) (Start w l2 m)
              (fun s k hk => ih m s k (by omega) hk) _ l l2 [] s1 hl h
          · rfl
        | returned => rfl
        | crashed => rfl
        | blocked => rfl
        | outOfFuel => rfl
        | tooDeep => rfl

/-- A `Start` either leaves the Frontier and the counter as they were or has
counted at least one fetch, within the budget. -/
theorem Start_progress (w : World) (l d : Nat) (s : State) (url : Str) :
    (Start w l d s url).state.MaxFetches = s.MaxFetches ∧
    s.crawlDepth ≤ (Start w l d s url).state.crawlDepth ∧
    (s.crawlDepth < (Start w l d s url).state.crawlDepth →
      (Start w l d s url).state.crawlDepth ≤ s.MaxFetches) ∧
    ((Start w l d s url).state.crawlDepth = s.crawlDepth →
      (Start w l d s url).state.urlIndex = s.urlIndex) := by
  refine Start_rel w
    (fun a b => b.MaxFetches = a.MaxFetches ∧ a.crawlDepth ≤ b.crawlDepth ∧
      (a.crawlDepth < b.crawlDepth → b.crawlDepth ≤ a.MaxFetches) ∧
      (b.crawlDepth = a.crawlDepth → b.urlIndex = a.urlIndex))
    ?_ ?_ ?_ ?_ l d s url
  · intro a
    exact ⟨rfl, le_refl _, fun h => absurd h (lt_irrefl _), fun _ => rfl⟩
  · rintro a b c ⟨h1, h2, h3, h4⟩ ⟨k1, k2, k3, k4⟩
    refine ⟨by rw [k1, h1], le_trans h2 k2, ?_, ?_⟩
    · intro hac
      by_cases hbc : b.crawlDepth < c.crawlDepth
      · rw [← h1]; exact k3 hbc
      · have : c.crawlDepth = b.crawlDepth := by omega
        rw [this]
        exact h3 (by omega)
    · intro hca
      have hb : b.crawlDepth = a.crawlDepth := by omega
      rw [k4 (by omega), h4 hb]
  · intro a
    exact ⟨rfl, le_refl _, fun h => absurd h (lt_irrefl _), fun _ => rfl⟩
  · intro a u hlt _
    obtain ⟨h1, _, _, h4, _, _⟩ := visit_fields w a u
    rcases h4 with h4 | ⟨h4, _⟩
    · rw [h4]
      exact ⟨rfl, le_refl _, fun h => absurd h (lt_irrefl _), fun _ => rfl⟩
    · exact ⟨h1, by omega, fun _ => by omega, fun h => by omega⟩

/-- The key a range step produces is in the Frontier and was not produced before. -/
theorem nextKey_mem (choice : Option Nat) (snap produced frontier : List Str) (k : Str)
    (h : nextKey choice snap produced frontier = some k) :
    k ∈ frontier ∧ k ∉ produced := by
  unfold nextKey at h
  have key : ∀ x, x ∈ frontier.filter (fun k => decide (k ∉ produced)) →
      x ∈ frontier ∧ x ∉ produced := by
    intro x hx
    simpa using List.mem_filter.1 hx
  cases choice with
  | some i =>
    simp only at h
    exact key k (List.getElem?_mem h)
  | none =>
    simp only at h
    have h1 := List.mem_of_mem_head? h
    exact key k (List.mem_filter.1 h1).1

/-- Producing a key leaves strictly fewer keys to produce. -/
theorem candidates_decrease (produced frontier : List Str) (k : Str)
    (hk : k ∉ produced) (hmem : k ∈ frontier) :
    (frontier.filter (fun x => decide (x ∉ k :: produced))).length <
      (frontier.filter (fun x => decide (x ∉ produced))).length := by
  have h1 : frontier.filter (fun x => decide (x ∉ k :: produced)) =
      (frontier.filter (fun x => decide (x ∉ produced))).filter (fun x => decide (x ≠ k)) := by
    rw [List.filter_filter]
    congr 1
    funext x
    simp [List.mem_cons, not_or]
  rw [h1]
  apply List.length_filter_lt_length_iff_exists.2
  refine ⟨k, ?_, by simp⟩
  exact List.mem_filter.2 ⟨hmem, by simpa using hk⟩

/-- A page visit ends in one of four ways, and it is blocked only when the listener
does not receive the page. -/
theorem visit_status (w : World) (s : State) (url : Str) :
    (visit w s url).status = .running ∨ (visit w s url).status = .returned ∨
    (visit w s url).status = .crashed ∨
    ((visit w s url).status = .blocked ∧
      ∃ n, w.receive n = false) := by
  have hidx : ∀ (s : State) (c : Str),
      (indexLink s c).status = .running ∨ (indexLink s c).status = .crashed := by
    intro s c
    unfold indexLink
    split
    · exact Or.inr rfl
    · split
      · exact Or.inr rfl
      · split
        · split <;> exact Or.inl rfl
        · exact Or.inl rfl
  have hone : ∀ (s : State) (href : Option Str),
      (eachAnchor s href).status = .running ∨ (eachAnchor s href).status = .crashed := by
    intro s href
    unfold eachAnchor
    split
    · exact Or.inl rfl
    · split
      · exact Or.inl rfl
      · exact hidx s _
  have hall : ∀ (hrefs : List (Option Str)) (s : State),
      (eachAnchors s hrefs).status = .running ∨ (eachAnchors s hrefs).status = .crashed := by
    intro hrefs
    induction hrefs with
    | nil => intro s; exact Or.inl rfl
    | cons href rest ih =>
      intro s
      unfold eachAnchors
      split
      · exact ih _
      · exact hone s href
  unfold visit
  split
  · exact Or.inr (Or.inr (Or.inl rfl))
  · simp only
    split
    · exact Or.inr (Or.inl rfl)
    · exact Or.inr (Or.inl rfl)
    · split
      · rcases hall _ _ with h | h
        · exact Or.inl h
        · exact Or.inr (Or.inr (Or.inl h))
      · rename_i hrecv
        exact Or.inr (Or.inr (Or.inr ⟨rfl, _, by simpa using hrecv⟩))

/-- If every `Start` with at most `b` fetches left comes to an end within nesting
depth `b + 1`, so does every `range` loop that calls it. -/
theorem rangeLoop_terminates (w : World) (b : Nat)
    (hTS : ∀ s url, State.budget s ≤ b → ∃ L, ∀ l ≥ L, (Start w l (b + 1) s url).ended)
    (snap : List Str) :
    ∀ (m n : Nat) (s : State) (produced : List Str), State.budget s ≤ b →
      State.budget s = m →
      (s.urlIndex.filter (fun x => decide (x ∉ produced))).length = n →
      ∃ L, ∀ lc ≥ L, ∀ ll ≥ L,
        (rangeLoop w (Start w lc (b + 1)) snap ll produced s).ended := by
  intro m
  induction m using Nat.strong_induction_on with
  | _ m ihm =>
    intro n
    induction n using Nat.strong_induction_on with
    | _ n ihn =>
      intro s produced hb hm hn
      cases hk : nextKey (w.order s.rangeSteps) snap produced s.urlIndex with
      | none =>
        refine ⟨1, ?_⟩
        intro lc _ ll hll
        obtain ⟨ll, rfl⟩ : ∃ x, ll = x + 1 := ⟨ll - 1, by omega⟩
        rw [rangeLoop_succ, hk]
        exact Or.inl rfl
      | some k =>
        obtain ⟨hkf, hkp⟩ := nextKey_mem _ _ _ _ _ hk
        obtain ⟨L1, hL1⟩ := hTS { s with rangeSteps := s.rangeSteps + 1 } k hb
        have hr := hL1 L1 (le_refl _)
        have hstab : ∀ lc ≥ L1,
            Start w lc (b + 1) { s with rangeSteps := s.rangeSteps + 1 } k =
              Start w L1 (b + 1) { s with rangeSteps := s.rangeSteps + 1 } k :=
          fun lc hlc => Start_stable w L1 lc hlc (b + 1) (b + 1) _ k (le_refl _) hr
        obtain ⟨p1, p2, p3, p4⟩ :=
          Start_progress w L1 (b + 1) { s with rangeSteps := s.rangeSteps + 1 } k
        generalize Start w L1 (b + 1) { s with rangeSteps := s.rangeSteps + 1 } k = r
          at hr hstab p1 p2 p3 p4
        obtain ⟨st, s2⟩ := r
        simp only at p1 p2 p3 p4
        rcases hr with hst | hst | hst
        · -- the nested call returned
          simp only at hst
          subst hst
          have hb2 : State.budget s2 ≤ b := by
            unfold State.budget at hb ⊢
            rw [p1]
            omega
          have hnext : ∃ L2, ∀ lc ≥ L2, ∀ ll ≥ L2,
              (rangeLoop w (Start w lc (b + 1)) snap ll (k :: produced) s2).ended := by
            by_cases hcd : s2.crawlDepth = s.crawlDepth
            · have hidx := p4 hcd
              have hm2 : State.budget s2 = m := by
                rw [← hm]
                unfold State.budget
                rw [p1, hcd]
              have hlt := candidates_decrease produced s.urlIndex k hkp hkf
              rw [hn] at hlt
              exact ihn _ hlt s2 (k :: produced) hb2 hm2 (by rw [hidx])
            · have hlt : State.budget s2 < m := by
                have h3 := p3 (by omega)
                rw [← hm]
                unfold State.budget
                rw [p1]
                omega
              exact ihm _ hlt _ s2 (k :: produced) hb2 rfl rfl
          obtain ⟨L2, hL2⟩ := hnext
          refine ⟨max L1 (L2 + 1), ?_⟩
          intro lc hlc ll hll
          obtain ⟨ll, rfl⟩ : ∃ x, ll = x + 1 := ⟨ll - 1, by omega⟩
          rw [rangeLoop_succ, hk]
          simp only
          rw [hstab lc (by omega)]
          exact hL2 lc (by omega) ll (by omega)
        · -- the nested call ended the process
          simp only at hst
          subst hst
          refine ⟨max L1 1, ?_⟩
          intro lc hlc ll hll
          obtain ⟨ll, rfl⟩ : ∃ x, ll = x + 1 := ⟨ll - 1, by omega⟩
          rw [rangeLoop_succ, hk]
          simp only
          rw [hstab lc (by omega)]
          exact Or.inr (Or.inl rfl)
        · -- the nested call is blocked
          simp only at hst
          subst hst
          refine ⟨max L1 1, ?_⟩
          intro lc hlc ll hll
          obtain ⟨ll, rfl⟩ : ∃ x, ll = x + 1 := ⟨ll - 1, by omega⟩
          rw [rangeLoop_succ, hk]
          simp only
          rw [hstab lc (by omega)]
          exact Or.inr (Or.inr rfl)

/-- A `Start` entered with at most `b` fetches left comes to an end within nesting
depth `b + 1`, given enough loop fuel. -/
theorem Start_terminates (w : World) :
    ∀ (b : Nat) (s : State) (url : Str), State.budget s ≤ b →
      ∃ L, ∀ l ≥ L, (Start w l (b + 1) s url).ended := by
  intro b
  induction b with
  | zero =>
    intro s url hb
    refine ⟨0, ?_⟩
    intro l _
    have : s.crawlDepth ≥ s.MaxFetches := by
      unfold State.budget at hb
      omega
    rw [Start_succ, if_pos this]
    exact Or.inl rfl
  | succ b ih =>
    intro s url hb
    by_cases hge : s.crawlDepth ≥ s.MaxFetches
    · refine ⟨0, ?_⟩
      intro l _
      rw [Start_succ, if_pos hge]
      exact Or.inl rfl
    by_cases hvis : url ∈ s.alreadyIndexedUrls
    · refine ⟨0, ?_⟩
      intro l _
      rw [Start_succ, if_neg hge, if_pos hvis]
      exact Or.inl rfl
    obtain ⟨f1, _, _, f4, _, _⟩ := visit_fields w s url
    have hst := visit_status w s url
    generalize hv : visit w s url = r at f1 f4 hst
    obtain ⟨st, s1⟩ := r
    simp only at f1 f4 hst
    rcases hst with hst | hst | hst | ⟨hst, _⟩
    · subst hst
      by_cases hlt : s1.crawlDepth < s1.MaxFetches
      · have hb1 : State.budget s1 ≤ b := by
          rcases f4 with f4 | ⟨f4, _⟩
          · simp at f4
          · unfold State.budget at hb ⊢
            rw [f1, f4]
            omega
        obtain ⟨L, hL⟩ := rangeLoop_terminates w b ih s1.urlIndex _ _ s1 [] hb1 rfl rfl
        refine ⟨L, ?_⟩
        intro l hl
        rw [Start_succ, if_neg hge, if_neg hvis, hv]
        simp only
        rw [if_pos hlt]
        exact hL l hl l hl
      · refine ⟨0, ?_⟩
        intro l _
        rw [Start_succ, if_neg hge, if_neg hvis, hv]
        simp only
        rw [if_neg hlt]
        exact Or.inl rfl
    · subst hst
      refine ⟨0, ?_⟩
      intro l _
      rw [Start_succ, if_neg hge, if_neg hvis, hv]
      exact Or.inl rfl
    · subst hst
      refine ⟨0, ?_⟩
      intro l _
      rw [Start_succ, if_neg hge, if_neg hvis, hv]
      exact Or.inr (Or.inl rfl)
    · subst hst
      refine ⟨0, ?_⟩
      intro l _
      rw [Start_succ, if_neg hge, if_neg hvis, hv]
      exact Or.inr (Or.inr rfl)

/-- Whatever the fuel, `Start` is blocked only if the listener fails to receive
some page. -/
theorem Start_blocked_only_if_unreceived (w : World) (hrecv : ∀ n, w.receive n = true)
    (l : Nat) : ∀ (d : Nat) (s : State) (url : Str), (Start w l d s url).status ≠ .blocked := by
  have hloop : ∀ (call : State → Str → Run), (∀ s k, (call s k).status ≠ .blocked) →
      ∀ (snap : List Str) (n : Nat) (produced : List Str) (s : State),
        (rangeLoop w call snap n produced s).status ≠ .blocked := by
    intro call hcall snap n
    induction n with
    | zero => intro produced s; simp [rangeLoop_zero]
    | succ n ih =>
      intro produced s
      rw [rangeLoop_succ]
      split
      · simp
      · rename_i k _
        have hc := hcall { s with rangeSteps := s.rangeSteps + 1 } k
        split
        · exact ih _ _
        · exact hc
  intro d
  induction d with
  | zero => intro s url; simp [Start_zero]
  | succ d ih =>
    intro s url
    rw [Start_succ]
    split
    · simp
    · split
      · simp
      · have hv : (visit w s url).status ≠ .blocked := by
          rcases visit_status w s url with h | h | h | ⟨_, n, hn⟩
          · rw [h]; simp
          · rw [h]; simp
          · rw [h]; simp
          · rw [hrecv n] at hn; simp at hn
        split
        · split
          · exact hloop _ ih _ _ _ _
          · simp
        · exact hv

/-! ## Facts about `net/url` -/

theorem char_le_iff (a b : Char) : a ≤ b ↔ a.toNat ≤ b.toNat := by
  rw [Char.le_def]; exact Iff.rfl

/-- A property of the bytes below 128 that holds of each of them holds of every
character below 128. -/
theorem ascii_cases (P : Char → Prop) (h : ∀ n < 128, P (Char.ofNat n)) (c : Char)
    (hc : c.toNat < 128) : P c := by
  have := h c.toNat hc
  rwa [Char.ofNat_toNat] at this

theorem upperhex_ishex (n : Nat) : ishex (upperhex n) = true := by
  have h : n % 16 < 16 := Nat.mod_lt _ (by decide)
  unfold upperhex
  generalize n % 16 = k at h
  interval_cases k <;> decide

/-- The characters `escape` can write for an escaped byte are not URL delimiters. -/
theorem upperhex_plain (n : Nat) :
    (upperhex n).toNat < 128 ∧ shouldEscape (upperhex n) encodeHost = false ∧
    upperhex n ≠ '+' ∧ upperhex n ≠ '%' ∧ upperhex n ≠ ':' := by
  have h : n % 16 < 16 := Nat.mod_lt _ (by decide)
  unfold upperhex
  generalize n % 16 = k at h
  interval_cases k <;> decide

theorem shouldEscape_percent (mode : Encoding) : shouldEscape '%' mode = true := by
  cases mode <;> decide

theorem shouldEscape_ctl (c : Char) (mode : Encoding) (h : c.toNat < 32 ∨ c.toNat = 127) :
    shouldEscape c mode = true := by
  have hb : c.toNat < 128 := by omega
  revert h
  refine ascii_cases (fun c => (c.toNat < 32 ∨ c.toNat = 127) → shouldEscape c mode = true)
    ?_ c hb
  cases mode <;> decide

theorem escape_cons (mode : Encoding) (c : Char) (s : Str) :
    escape mode (c :: s) =
      (if shouldEscape c mode then
        if c = ' ' ∧ mode = encodeQueryComponent then ['+']
        else ['%', upperhex (c.toNat / 16), upperhex (c.toNat % 16)]
      else [c]) ++ escape mode s := by
  simp [escape, List.flatMap_cons]

theorem escape_nil (mode : Encoding) : escape mode [] = [] := rfl

/-- A byte that `escape` would escape, and that is not one of the bytes an escape
is written with, does not occur in the output of `escape`. -/
theorem not_mem_escape (mode : Encoding) (ch : Char) (h1 : shouldEscape ch mode = true)
    (h2 : ∀ n, ch ≠ upperhex n) (h3 : ch ≠ '+') (h4 : ch ≠ '%') :
    ∀ s : Str, ch ∉ escape mode s := by
  intro s
  induction s with
  | nil => simp [escape_nil]
  | cons c s ih =>
    rw [escape_cons]
    intro hm
    rcases List.mem_append.1 hm with hm | hm
    · split at hm
      · split at hm
        · simp at hm; exact h3 hm
        · simp only [List.mem_cons, List.mem_singleton, List.not_mem_nil, or_false] at hm
          rcases hm with hm | hm | hm
          · exact h4 hm
          · exact h2 _ hm
          · exact h2 _ hm
      · rename_i hne
        simp only [List.mem_singleton] at hm
        subst hm
        exact hne h1
    · exact ih hm

theorem ne_upperhex_of_escaped (ch : Char) (h : shouldEscape ch encodeHost = true) (n : Nat) :
    ch ≠ upperhex n := by
  intro e
  rw [e, (upperhex_plain n).2.1] at h
  simp at h

/-- Bytes that need no escaping are left as they are. -/
theorem escape_of_plain (mode : Encoding) :
    ∀ s : Str, (∀ ch ∈ s, shouldEscape ch mode = false) → escape mode s = s := by
  intro s
  induction s with
  | nil => intro _; rfl
  | cons c s ih =>
    intro h
    rw [escape_cons, if_neg (by simp [h c (List.mem_cons_self _ _)]),
      ih (fun ch hch => h ch (List.mem_cons_of_mem _ hch))]
    rfl

/-- Outside the host, what `escape` writes can always be unescaped. -/
theorem unescape_escape (mode : Encoding) (h1 : mode ≠ encodeHost) (h2 : mode ≠ encodeZone) :
    ∀ s : Str, (unescape mode (escape mode s)).isSome = true := by
  intro s
  induction s with
  | nil => rfl
  | cons c s ih =>
    rw [escape_cons]
    split
    · split
      · rw [List.singleton_append, unescape.eq_4 _ _ _ (by intro a b r h; simp at h) (by simp),
          if_neg (by simp [h1, h2])]
        simpa using ih
      · show (unescape mode ('%' :: upperhex (c.toNat / 16) :: upperhex (c.toNat % 16) ::
          escape mode s)).isSome = true
        rw [unescape.eq_2, if_neg (by simp [upperhex_ishex]), if_neg (by simp [h1]),
          if_neg (by simp [h2])]
        simpa using ih
    · rename_i hne
      have hc : c ≠ '%' := by
        intro e
        subst e
        exact hne (shouldEscape_percent mode)
      rw [List.singleton_append, unescape.eq_4 _ _ _ (fun a b r h => absurd h hc)
        (fun h => absurd h hc), if_neg (by simp [h1, h2])]
      simpa using ih

theorem cut_of_not_mem (sep : Char) : ∀ a : Str, sep ∉ a → cut sep a = (a, [], false) := by
  intro a
  induction a with
  | nil => intro _; rfl
  | cons c a ih =>
    intro h
    have hc : c ≠ sep := fun e => h (by rw [e]; exact List.mem_cons_self _ _)
    have := ih (fun hm => h (List.mem_cons_of_mem _ hm))
    simp [cut, hc, this]

theorem cut_append (sep : Char) (b : Str) :
    ∀ a : Str, sep ∉ a → cut sep (a ++ sep :: b) = (a, b, true) := by
  intro a
  induction a with
  | nil => intro _; simp [cut]
  | cons c a ih =>
    intro h
    have hc : c ≠ sep := fun e => h (by rw [e]; exact List.mem_cons_self _ _)
    have := ih (fun hm => h (List.mem_cons_of_mem _ hm))
    simp [cut, hc, this]

theorem cutLast_of_not_mem (sep : Char) : ∀ a : Str, sep ∉ a → cutLast sep a = none := by
  intro a
  induction a with
  | nil => intro _; rfl
  | cons c a ih =>
    intro h
    have hc : c ≠ sep := fun e => h (by rw [e]; exact List.mem_cons_self _ _)
    have := ih (fun hm => h (List.mem_cons_of_mem _ hm))
    simp [cutLast, hc, this]

theorem cutLast_append (sep : Char) (b : Str) (hb : sep ∉ b) :
    ∀ a : Str, cutLast sep (a ++ sep :: b) = some (a, b) := by
  intro a
  induction a with
  | nil => simp [cutLast, cutLast_of_not_mem sep b hb]
  | cons c a ih => simp [cutLast, ih]

theorem ctl_free_iff (s : Str) :
    stringContainsCTLByte s = false ↔ ∀ ch ∈ s, ¬ (ch.toNat < 32 ∨ ch.toNat = 127) := by
  unfold stringContainsCTLByte
  rw [List.any_eq_false]
  constructor
  · intro h ch hch
    simpa using h ch hch
  · intro h ch hch
    simpa using h ch hch

theorem count_of_not_mem (sep : Char) (a : Str) (h : sep ∉ a) : count sep a = 0 := by
  unfold count
  rw [List.length_eq_zero, List.filter_eq_nil_iff]
  intro ch hch
  simp only [decide_eq_true_eq]
  intro e
  exact h (e ▸ hch)

theorem count_append_singleton (sep : Char) (a : Str) (h : sep ∉ a) :
    count sep (a ++ [sep]) = 1 := by
  have := count_of_not_mem sep a h
  unfold count at this ⊢
  rw [List.filter_append, List.length_append, this]
  simp

theorem hasSuffix_append_singleton (a : Str) (c : Char) : hasSuffix (a ++ [c]) [c] = true := by
  unfold hasSuffix
  rw [List.isSuffixOf_iff_suffix]
  exact ⟨a, rfl⟩

theorem hasSuffix_of_not_mem (a : Str) (c : Char) (h : c ∉ a) : hasSuffix a [c] = false := by
  cases hs : hasSuffix a [c] with
  | false => rfl
  | true =>
    unfold hasSuffix at hs
    rw [List.isSuffixOf_iff_suffix] at hs
    obtain ⟨t, ht⟩ := hs
    exact absurd (by rw [← ht]; simp) h

theorem mem_validEncoded (mode : Encoding) (s : Str) (h : validEncoded mode s = true)
    (ch : Char) (hch : ch ∈ s) :
    ch ∈ ['!', '$', '&', '\'', '(', ')', '*', '+', ',', ';', '=', ':', '@', '[', ']', '%'] ∨
    shouldEscape ch mode = false := by
  unfold validEncoded at h
  rw [List.all_eq_true] at h
  have := h ch hch
  split at this
  · rename_i hm; exact Or.inl hm
  · right; simpa using this

set_option maxRecDepth 8000 in
theorem toNat_ofNat_byte : ∀ n < 256, (Char.ofNat n).toNat = n := by decide

theorem unhex_le (c : Char) : unhex c ≤ 15 := by
  unfold unhex
  simp only [char_le_iff]
  have e1 : ('9' : Char).toNat = 57 := rfl
  have e2 : ('f' : Char).toNat = 102 := rfl
  have e3 : ('F' : Char).toNat = 70 := rfl
  split
  · omega
  · split
    · omega
    · split
      · omega
      · omega

/-- A byte that is left unescaped somewhere is an ASCII byte. -/
theorem ascii_of_unescaped (c : Char) (mode : Encoding) (h : shouldEscape c mode = false) :
    c.toNat < 128 := by
  have hl : ∀ l : List Char, (∀ d ∈ l, d.toNat < 128) → c ∈ l → c.toNat < 128 :=
    fun l hl hc => hl c hc
  have e1 : ('z' : Char).toNat = 122 := rfl
  have e2 : ('Z' : Char).toNat = 90 := rfl
  have e3 : ('9' : Char).toNat = 57 := rfl
  unfold shouldEscape at h
  split at h
  · rename_i hc
    simp only [char_le_iff] at hc
    omega
  · split at h
    · rename_i hc
      exact hl _ (by decide) hc.2
    · split at h
      · rename_i hc
        exact hl _ (by decide) hc
      · split at h
        · rename_i hc
          exact hl _ (by decide) hc.1
        · split at h
          · rename_i hc
            exact hl _ (by decide) hc.2
          · simp at h

theorem noDelims_append (a b : Str) (ha : NoDelims a) (hb : NoDelims b) : NoDelims (a ++ b) := by
  intro ch hch
  rcases List.mem_append.1 hch with h | h
  · exact ha ch h
  · exact hb ch h

/-- Where `?` and `#` are escaped, the output of `escape` holds no delimiter. -/
theorem noDelims_escape (mode : Encoding) (hq : shouldEscape '?' mode = true)
    (hh : shouldEscape '#' mode = true) (s : Str) : NoDelims (escape mode s) := by
  intro ch hch
  refine ⟨?_, ?_, ?_⟩
  · intro e
    subst e
    exact not_mem_escape mode '#' hh (ne_upperhex_of_escaped _ (by decide)) (by decide)
      (by decide) s hch
  · intro e
    subst e
    exact not_mem_escape mode '?' hq (ne_upperhex_of_escaped _ (by decide)) (by decide)
      (by decide) s hch
  · intro hc
    refine not_mem_escape mode ch (shouldEscape_ctl ch mode hc)
      (ne_upperhex_of_escaped _ (shouldEscape_ctl ch _ hc)) ?_ ?_ s hch
    · intro e; subst e; revert hc; decide
    · intro e; subst e; revert hc; decide

/-- A byte left unescaped in the path is no delimiter. -/
theorem noDelim_of_unescaped (mode : Encoding) (hq : shouldEscape '?' mode = true)
    (hh : shouldEscape '#' mode = true) (ch : Char) (h : shouldEscape ch mode = false) :
    ch ≠ '#' ∧ ch ≠ '?' ∧ ¬ (ch.toNat < 32 ∨ ch.toNat = 127) := by
  refine ⟨?_, ?_, ?_⟩
  · intro e; subst e; rw [hh] at h; simp at h
  · intro e; subst e; rw [hq] at h; simp at h
  · intro hc
    rw [shouldEscape_ctl ch mode hc] at h
    simp at h

/-- What `EscapedPath` writes holds no delimiter and can be unescaped. -/
theorem EscapedPath_ok (u : URL) :
    NoDelims u.EscapedPath ∧ (unescape encodePath u.EscapedPath).isSome = true := by
  unfold URL.EscapedPath
  split
  · rename_i h
    obtain ⟨_, hv, hu⟩ := h
    refine ⟨?_, by rw [hu]; rfl⟩
    intro ch hch
    rcases mem_validEncoded _ _ hv ch hch with hm | hm
    · revert hm
      have key : ∀ d ∈ ['!', '$', '&', '\'', '(', ')', '*', '+', ',', ';', '=', ':', '@', '[',
          ']', '%'], d ≠ '#' ∧ d ≠ '?' ∧ ¬ (d.toNat < 32 ∨ d.toNat = 127) := by decide
      exact key ch
    · exact noDelim_of_unescaped encodePath (by decide) (by decide) ch hm
  · split
    · refine ⟨?_, by decide⟩
      intro ch hch
      simp only [List.mem_singleton] at hch
      subst hch
      decide
    · exact ⟨noDelims_escape encodePath (by decide) (by decide) _,
        unescape_escape encodePath (by decide) (by decide) _⟩

/-- What `EscapedFragment` writes can be unescaped. -/
theorem EscapedFragment_ok (u : URL) :
    (unescape encodeFragment u.EscapedFragment).isSome = true := by
  unfold URL.EscapedFragment
  split
  · rename_i h
    rw [h.2.2]; rfl
  · exact unescape_escape encodeFragment (by decide) (by decide) _

/-- A host that unescapes to ASCII text without `%` was written as that text, and
none of its bytes needs escaping. -/
theorem unescape_host_plain :
    ∀ raw H : Str, unescape encodeHost raw = some H →
      (∀ ch ∈ H, ch ≠ '%' ∧ ch.toNat < 128) →
      raw = H ∧ ∀ ch ∈ H, shouldEscape ch encodeHost = false := by
  intro raw
  induction raw with
  | nil =>
    intro H h _
    rw [unescape.eq_1] at h
    injection h with h
    subst h
    exact ⟨rfl, by simp⟩
  | cons c rest ih =>
    intro H h hpl
    by_cases hc : c = '%'
    · subst hc
      exfalso
      match rest, h with
      | [], h => rw [unescape.eq_3 _ _ (by intro a b r e; simp at e)] at h; simp at h
      | [a], h => rw [unescape.eq_3 _ _ (by intro a b r e; simp at e)] at h; simp at h
      | a :: b :: r, h =>
        rw [unescape.eq_2] at h
        split at h
        · simp at h
        · split at h
          · simp at h
          · rename_i hhost
            split at h
            · simp at h
            · cases hr : unescape encodeHost r with
              | none => rw [hr] at h; simp at h
              | some t =>
                rw [hr] at h
                simp only [Option.map_some', Option.some.injEq] at h
                have hd := hpl (Char.ofNat (unhex a * 16 + unhex b)) (by rw [← h]; simp)
                have ha := unhex_le a
                have hb := unhex_le b
                have hn := toNat_ofNat_byte (unhex a * 16 + unhex b) (by omega)
                by_cases h8 : unhex a < 8
                · have h25 : ['%', a, b] = ['%', '2', '5'] := by
                    by_contra hne
                    exact hhost ⟨rfl, h8, hne⟩
                  simp only [List.cons.injEq, and_true, true_and] at h25
                  obtain ⟨e1, e2⟩ := h25
                  subst e1; subst e2
                  exact hd.1 (by decide)
                · rw [hn] at hd
                  omega
    · rw [unescape.eq_4 _ _ _ (fun a b r e => absurd e hc) (fun e => absurd e hc)] at h
      split at h
      · simp at h
      · rename_i hchk
        cases hr : unescape encodeHost rest with
        | none => rw [hr] at h; simp at h
        | some t =>
          rw [hr] at h
          simp only [Option.map_some', Option.some.injEq] at h
          have hq : (if c = '+' ∧ encodeHost = encodeQueryComponent then ' ' else c) = c := by
            simp
          rw [hq] at h
          subst h
          obtain ⟨i1, i2⟩ := ih t hr (fun ch hch => hpl ch (List.mem_cons_of_mem _ hch))
          have hc2 := hpl c (List.mem_cons_self _ _)
          have hs : shouldEscape c encodeHost = false := by
            cases hse : shouldEscape c encodeHost with
            | false => rfl
            | true => exact absurd ⟨Or.inl rfl, hc2.2, hse⟩ hchk
          refine ⟨by rw [i1], ?_⟩
          intro ch hch
          rcases List.mem_cons.1 hch with e | e
          · rw [e]; exact hs
          · exact i2 ch e

theorem index_isPrefix (pat : Str) :
    ∀ (s : Str) (n : Nat), index pat s = some n → pat.isPrefixOf (s.drop n) = true := by
  intro s
  induction s with
  | nil =>
    intro n h
    unfold index at h
    split at h
    · rename_i hp
      injection h with h
      subst h
      subst hp
      rfl
    · simp at h
  | cons c cs ih =>
    intro n h
    unfold index at h
    split at h
    · rename_i hp
      injection h with h
      subst h
      exact hp
    · cases hi : index pat cs with
      | none => rw [hi] at h; simp at h
      | some m =>
        rw [hi] at h
        simp only [Option.map_some', Option.some.injEq] at h
        subst h
        exact ih m hi

/-- A zone identifier always leaves a `%` in the host. -/
theorem unescape_zone_head (s t : Str) (hp : ['%', '2', '5'].isPrefixOf s = true)
    (h : unescape encodeZone s = some t) : '%' ∈ t := by
  rw [List.isPrefixOf_iff_prefix] at hp
  obtain ⟨r, hr⟩ := hp
  subst hr
  simp only [List.cons_append, List.nil_append] at h
  rw [unescape.eq_2] at h
  split at h
  · simp at h
  · split at h
    · simp at h
    · split at h
      · simp at h
      · cases hr : unescape encodeZone r with
        | none => rw [hr] at h; simp at h
        | some t2 =>
          rw [hr] at h
          simp only [Option.map_some', Option.some.injEq] at h
          rw [← h]
          exact List.mem_cons_self _ _

/-- A host that `parseHost` yields as ASCII text without `%` is its own written
form: `parseHost` maps it to itself, and escaping leaves it alone. -/
theorem parseHost_plain (raw H : Str) (h : parseHost raw = some H)
    (hpl : ∀ ch ∈ H, ch ≠ '%' ∧ ch.toNat < 128) :
    parseHost H = some H ∧ ∀ ch ∈ H, shouldEscape ch encodeHost = false := by
  have key : unescape encodeHost raw = some H := by
    unfold parseHost at h
    split at h
    · split at h
      · simp at h
      · rename_i before colonPort hcl
        split at h
        · simp at h
        · split at h
          · rename_i zone hz
            exfalso
            split at h
            · rename_i h1 h2 h3 e1 e2 e3
              injection h with h
              have hm := unescape_zone_head _ _ (index_isPrefix _ _ _ hz) e2
              have := (hpl '%' (by rw [← h]; simp [hm])).1
              exact this rfl
            · simp at h
          · exact h
    · split at h
      · split at h
        · simp at h
        · exact h
      · exact h
  obtain ⟨e, hs⟩ := unescape_host_plain raw H key hpl
  rw [e] at h
  exact ⟨h, hs⟩

theorem ascii_of_schemeByte (c : Char) (h : schemeByte c = true) : c.toNat < 128 := by
  have e1 : ('z' : Char).toNat = 122 := rfl
  have e2 : ('Z' : Char).toNat = 90 := rfl
  have e3 : ('9' : Char).toNat = 57 := rfl
  unfold schemeByte at h
  simp only [char_le_iff, Bool.decide_or, Bool.decide_and, Bool.or_eq_true, Bool.and_eq_true,
    decide_eq_true_eq] at h
  rcases h with h | h | h | h | h | h
  · omega
  · omega
  · omega
  · subst h; decide
  · subst h; decide
  · subst h; decide

/-- Lower-casing keeps a scheme byte a scheme byte and a letter a letter, and a
scheme byte is no delimiter. -/
theorem schemeByte_facts (c : Char) (h : schemeByte c = true) :
    schemeByte (if 'A' ≤ c ∧ c ≤ 'Z' then Char.ofNat (c.toNat + 32) else c) = true ∧
    (letterByte c = true →
      letterByte (if 'A' ≤ c ∧ c ≤ 'Z' then Char.ofNat (c.toNat + 32) else c) = true) ∧
    c ≠ '#' ∧ c ≠ '?' ∧ c ≠ '/' ∧ c ≠ ':' ∧ ¬ (c.toNat < 32 ∨ c.toNat = 127) := by
  have hb := ascii_of_schemeByte c h
  revert h
  refine ascii_cases (fun c => schemeByte c = true →
    schemeByte (if 'A' ≤ c ∧ c ≤ 'Z' then Char.ofNat (c.toNat + 32) else c) = true ∧
    (letterByte c = true →
      letterByte (if 'A' ≤ c ∧ c ≤ 'Z' then Char.ofNat (c.toNat + 32) else c) = true) ∧
    c ≠ '#' ∧ c ≠ '?' ∧ c ≠ '/' ∧ c ≠ ':' ∧ ¬ (c.toNat < 32 ∨ c.toNat = 127)) ?_ c hb
  decide

theorem SchemeOK_toLower (sch : Str) (h : SchemeOK sch) : SchemeOK (toLower sch) := by
  obtain ⟨h1, c, t, h2, h3⟩ := h
  refine ⟨?_, ?_⟩
  · intro ch hch
    unfold toLower at hch
    obtain ⟨d, hd, e⟩ := List.mem_map.1 hch
    rw [← e]
    exact (schemeByte_facts d (h1 d hd)).1
  · subst h2
    refine ⟨_, _, rfl, ?_⟩
    exact (schemeByte_facts c (h1 c (List.mem_cons_self _ _))).2.1 h3

theorem SchemeOK_noDelims (sch : Str) (h : SchemeOK sch) :
    NoDelims (sch ++ [':']) ∧ '/' ∉ sch := by
  refine ⟨?_, ?_⟩
  · intro ch hch
    rcases List.mem_append.1 hch with hm | hm
    · obtain ⟨_, _, k1, k2, _, _, k3⟩ := schemeByte_facts ch (h.1 ch hm)
      exact ⟨k1, k2, k3⟩
    · simp only [List.mem_singleton] at hm
      subst hm
      decide
  · intro hm
    exact (schemeByte_facts _ (h.1 _ hm)).2.2.2.2.1 rfl

/-- What `getScheme` returns: no scheme and the whole text, or a well-formed scheme
and the text after its colon. -/
theorem getSchemeAux_result (raw sch rest : Str) :
    ∀ (cs pre : Str), raw = pre ++ cs → (∀ ch ∈ pre, schemeByte ch = true) →
      (∀ c t, pre = c :: t → letterByte c = true) →
      getSchemeAux raw pre.length cs = some (sch, rest) →
      (sch = [] ∧ rest = raw) ∨ (SchemeOK sch ∧ raw = sch ++ ':' :: rest) := by
  intro cs
  induction cs with
  | nil =>
    intro pre _ _ _ h
    unfold getSchemeAux at h
    injection h with h
    injection h with h1 h2
    exact Or.inl ⟨h1.symm, h2.symm⟩
  | cons c cs ih =>
    intro pre hraw hpre hhead h
    have hnext : ∀ (hsb : schemeByte c = true) (hl : pre = [] → letterByte c = true),
        getSchemeAux raw (pre.length + 1) cs = some (sch, rest) →
        (sch = [] ∧ rest = raw) ∨ (SchemeOK sch ∧ raw = sch ++ ':' :: rest) := by
      intro hsb hl hrec
      have := ih (pre ++ [c]) (by rw [hraw]; simp)
        (by
          intro ch hch
          rcases List.mem_append.1 hch with hm | hm
          · exact hpre ch hm
          · simp only [List.mem_singleton] at hm
            rw [hm]; exact hsb)
        (by
          intro c2 t2 e
          cases pre with
          | nil =>
            simp only [List.nil_append, List.cons.injEq] at e
            rw [← e.1]; exact hl rfl
          | cons p ps =>
            simp only [List.cons_append, List.cons.injEq] at e
            rw [← e.1]; exact hhead p ps rfl)
        (by rw [List.length_append]; exact hrec)
      exact this
    unfold getSchemeAux at h
    split at h
    · rename_i hc
      have hlb : letterByte c = true := by
        unfold letterByte; simpa using hc
      have hsb : schemeByte c = true := by
        unfold schemeByte
        simp only [Bool.decide_or, Bool.decide_and, Bool.or_eq_true, Bool.and_eq_true,
          decide_eq_true_eq]
        rcases hc with hc | hc
        · exact Or.inl hc
        · exact Or.inr (Or.inl hc)
      exact hnext hsb (fun _ => hlb) h
    · split at h
      · rename_i hc
        split at h
        · injection h with h
          injection h with h1 h2
          exact Or.inl ⟨h1.symm, h2.symm⟩
        · rename_i hi
          have hsb : schemeByte c = true := by
            unfold schemeByte
            simp only [Bool.decide_or, Bool.decide_and, Bool.or_eq_true, Bool.and_eq_true,
              decide_eq_true_eq]
            rcases hc with hc | hc | hc | hc
            · exact Or.inr (Or.inr (Or.inl hc))
            · exact Or.inr (Or.inr (Or.inr (Or.inl hc)))
            · exact Or.inr (Or.inr (Or.inr (Or.inr (Or.inl hc))))
            · exact Or.inr (Or.inr (Or.inr (Or.inr (Or.inr hc))))
          refine hnext hsb (fun e => ?_) h
          rw [e] at hi
          exact absurd rfl hi
      · split at h
        · rename_i hc
          split at h
          · simp at h
          · rename_i hi
            injection h with h
            injection h with h1 h2
            right
            have ht : raw.take pre.length = pre := by rw [hraw]; simp
            rw [ht] at h1
            subst h1
            subst h2
            subst hc
            refine ⟨⟨hpre, ?_⟩, hraw⟩
            cases pre with
            | nil => exact absurd rfl hi
            | cons p ps => exact ⟨p, ps, rfl, hhead p ps rfl⟩
        · injection h with h
          injection h with h1 h2
          exact Or.inl ⟨h1.symm, h2.symm⟩

theorem getScheme_result (raw sch rest : Str) (h : getScheme raw = some (sch, rest)) :
    (sch = [] ∧ rest = raw) ∨ (SchemeOK sch ∧ raw = sch ++ ':' :: rest) :=
  getSchemeAux_result raw sch rest raw [] rfl (by simp) (by simp) h

theorem getSchemeAux_scheme (rest : Str) :
    ∀ (cs pre : Str), (∀ ch ∈ cs, schemeByte ch = true) →
      (pre = [] → ∃ c t, cs = c :: t ∧ letterByte c = true) →
      getSchemeAux (pre ++ cs ++ ':' :: rest) pre.length (cs ++ ':' :: rest) =
        some (pre ++ cs, rest) := by
  intro cs
  induction cs with
  | nil =>
    intro pre _ hne
    have hp : pre ≠ [] := by
      intro e
      obtain ⟨c, t, h, _⟩ := hne e
      simp at h
    have hl : pre.length ≠ 0 := by
      intro e
      exact hp (List.length_eq_zero.1 e)
    simp only [List.append_nil, List.nil_append]
    unfold getSchemeAux
    rw [if_neg (by decide), if_neg (by decide), if_pos rfl, if_neg hl]
    simp
  | cons c cs ih =>
    intro pre hcs hne
    have hsb := hcs c (List.mem_cons_self _ _)
    have hrec := ih (pre ++ [c]) (fun ch hch => hcs ch (List.mem_cons_of_mem _ hch))
      (by intro e; simp at e)
    simp only [List.append_assoc, List.singleton_append, List.length_append, List.length_singleton]
      at hrec
    simp only [List.cons_append, List.append_assoc]
    unfold getSchemeAux
    split
    · exact hrec
    · rename_i hnl
      have hd : (('0' ≤ c ∧ c ≤ '9') ∨ c = '+' ∨ c = '-' ∨ c = '.') := by
        unfold schemeByte at hsb
        simp only [Bool.decide_or, Bool.decide_and, Bool.or_eq_true, Bool.and_eq_true,
          decide_eq_true_eq] at hsb
        rcases hsb with h | h | h | h | h | h
        · exact absurd (Or.inl h) hnl
        · exact absurd (Or.inr h) hnl
        · exact Or.inl h
        · exact Or.inr (Or.inl h)
        · exact Or.inr (Or.inr (Or.inl h))
        · exact Or.inr (Or.inr (Or.inr h))
      rw [if_pos hd]
      have hl : pre.length ≠ 0 := by
        intro e
        obtain ⟨c2, t2, h, hlet⟩ := hne (List.length_eq_zero.1 e)
        injection h with h1 _
        subst h1
        unfold letterByte at hlet
        simp only [Bool.decide_or, Bool.decide_and, Bool.or_eq_true, Bool.and_eq_true,
          decide_eq_true_eq] at hlet
        exact hnl hlet
      rw [if_neg hl]
      exact hrec

theorem getScheme_scheme (sch rest : Str) (h : SchemeOK sch) :
    getScheme (sch ++ ':' :: rest) = some (sch, rest) := by
  have := getSchemeAux_scheme rest sch [] h.1 (fun _ => h.2)
  simpa [getScheme] using this

/-- Where the bytes written by `escape` come from. -/
theorem mem_escape (mode : Encoding) (ch : Char) :
    ∀ s : Str, ch ∈ escape mode s →
      (ch ∈ s ∧ shouldEscape ch mode = false) ∨ ch = '+' ∨ ch = '%' ∨ ∃ n, ch = upperhex n := by
  intro s
  induction s with
  | nil => intro h; simp [escape_nil] at h
  | cons c s ih =>
    intro hm
    rw [escape_cons] at hm
    rcases List.mem_append.1 hm with hm | hm
    · split at hm
      · split at hm
        · simp only [List.mem_singleton] at hm
          exact Or.inr (Or.inl hm)
        · simp only [List.mem_cons, List.mem_singleton, List.not_mem_nil, or_false] at hm
          rcases hm with hm | hm | hm
          · exact Or.inr (Or.inr (Or.inl hm))
          · exact Or.inr (Or.inr (Or.inr ⟨_, hm⟩))
          · exact Or.inr (Or.inr (Or.inr ⟨_, hm⟩))
      · rename_i hne
        simp only [List.mem_singleton] at hm
        subst hm
        exact Or.inl ⟨List.mem_cons_self _ _, by simpa using hne⟩
    · rcases ih hm with ⟨h1, h2⟩ | h
      · exact Or.inl ⟨List.mem_cons_of_mem _ h1, h2⟩
      · exact Or.inr h

/-- Escaped user information passes `validUserinfo`. -/
theorem validUserinfo_escape (x : Str) :
    validUserinfo (escape encodeUserPassword x) = true := by
  unfold validUserinfo
  rw [List.all_eq_true]
  intro ch hch
  rcases mem_escape _ _ _ hch with ⟨_, h⟩ | h | h | ⟨n, h⟩
  · have hb := ascii_of_unescaped ch _ h
    revert h
    refine ascii_cases (fun r => shouldEscape r encodeUserPassword = false →
      decide (('A' ≤ r ∧ r ≤ 'Z') ∨ ('a' ≤ r ∧ r ≤ 'z') ∨ ('0' ≤ r ∧ r ≤ '9') ∨
        r ∈ ['-', '.', '_', ':', '~', '!', '$', '&', '\'', '(', ')', '*', '+', ',', ';', '=',
          '%', '@']) = true) ?_ ch hb
    decide
  · subst h; decide
  · subst h; decide
  · subst h
    have hn : n % 16 < 16 := Nat.mod_lt _ (by decide)
    unfold upperhex
    generalize n % 16 = k at hn
    interval_cases k <;> decide

theorem validUserinfo_append (a b : Str) (ha : validUserinfo a = true)
    (hb : validUserinfo b = true) : validUserinfo (a ++ b) = true := by
  unfold validUserinfo at ha hb ⊢
  rw [List.all_append, ha, hb]
  rfl

/-- The written form of user information holds no delimiter, `/` or `@`, and
`parseAuthority` accepts it. -/
theorem Userinfo_String_ok (ui : Userinfo) :
    NoDelims ui.String ∧ '/' ∉ ui.String ∧ '@' ∉ ui.String ∧
    validUserinfo ui.String = true ∧
    (':' ∉ ui.String → (unescape encodeUserPassword ui.String).isSome = true) ∧
    (':' ∈ ui.String →
      (unescape encodeUserPassword (cut ':' ui.String).1).isSome = true ∧
      (unescape encodeUserPassword (cut ':' ui.String).2.1).isSome = true) := by
  have hu := noDelims_escape encodeUserPassword (by decide) (by decide)
  have hs : ∀ x : Str, '/' ∉ escape encodeUserPassword x := fun x =>
    not_mem_escape _ '/' (by decide) (ne_upperhex_of_escaped _ (by decide)) (by decide)
      (by decide) x
  have ha : ∀ x : Str, '@' ∉ escape encodeUserPassword x := fun x =>
    not_mem_escape _ '@' (by decide) (ne_upperhex_of_escaped _ (by decide)) (by decide)
      (by decide) x
  have hc : ∀ x : Str, ':' ∉ escape encodeUserPassword x := fun x =>
    not_mem_escape _ ':' (by decide) (fun n e => (upperhex_plain n).2.2.2.2 e.symm) (by decide)
      (by decide) x
  have hun := unescape_escape encodeUserPassword (by decide) (by decide)
  unfold Userinfo.String
  cases ui.passwordSet with
  | false =>
    simp only [Bool.false_eq_true, if_false, List.append_nil]
    exact ⟨hu _, hs _, ha _, validUserinfo_escape _, fun _ => hun _,
      fun h => absurd h (hc _)⟩
  | true =>
    simp only [if_true]
    refine ⟨?_, ?_, ?_, ?_, ?_, ?_⟩
    · refine noDelims_append _ _ (hu _) ?_
      intro ch hch
      rcases List.mem_cons.1 hch with e | e
      · subst e; decide
      · exact hu _ ch e
    · intro hm
      rcases List.mem_append.1 hm with e | e
      · exact hs _ e
      · rcases List.mem_cons.1 e with e | e
        · simp at e
        · exact hs _ e
    · intro hm
      rcases List.mem_append.1 hm with e | e
      · exact ha _ e
      · rcases List.mem_cons.1 e with e | e
        · simp at e
        · exact ha _ e
    · refine validUserinfo_append _ _ (validUserinfo_escape _) ?_
      have : validUserinfo (':' :: escape encodeUserPassword ui.password) =
          validUserinfo ([':'] ++ escape encodeUserPassword ui.password) := rfl
      rw [this]
      exact validUserinfo_append _ _ (by decide) (validUserinfo_escape _)
    · intro h
      exact absurd (List.mem_append_right _ (List.mem_cons_self _ _)) h
    · intro _
      rw [cut_append ':' _ _ (hc _)]
      exact ⟨hun _, hun _⟩

/-- The authority `String` writes for a plain host is read back by `parseAuthority`
with the same host. -/
theorem parseAuthority_reparse (user : Option Userinfo) (H : Str)
    (hH : parseHost H = some H) (hat : '@' ∉ H) :
    ∃ usr, parseAuthority
      ((match user with
        | some ui => ui.String ++ ['@']
        | none => []) ++ H) = some (usr, H) := by
  cases user with
  | none =>
    simp only [List.nil_append]
    unfold parseAuthority
    rw [cutLast_of_not_mem '@' H hat]
    simp only [hH, Option.map_some']
    exact ⟨_, rfl⟩
  | some ui =>
    obtain ⟨_, _, _, hv, h1, h2⟩ := Userinfo_String_ok ui
    simp only [List.append_assoc, List.singleton_append]
    unfold parseAuthority
    rw [cutLast_append '@' H hat]
    simp only [hH, hv, not_true_eq_false, if_false]
    by_cases hc : ':' ∈ ui.String
    · obtain ⟨k1, k2⟩ := h2 hc
      obtain ⟨t1, e1⟩ := Option.isSome_iff_exists.1 k1
      obtain ⟨t2, e2⟩ := Option.isSome_iff_exists.1 k2
      simp only [hc, not_true_eq_false, if_false, e1, e2]
      exact ⟨_, rfl⟩
    · obtain ⟨t1, e1⟩ := Option.isSome_iff_exists.1 (h1 hc)
      simp only [hc, not_false_eq_true, if_true, e1, Option.map_some']
      exact ⟨_, rfl⟩

theorem setPath_host (u v : URL) (p : Str) (h : setPath u p = some v) :
    v.Host = u.Host ∧ v.Opaque = u.Opaque ∧ v.Scheme = u.Scheme := by
  unfold setPath at h
  split at h
  · simp at h
  · injection h with h
    subst h
    exact ⟨rfl, rfl, rfl⟩

theorem setFragment_host (u v : URL) (f : Str) (h : setFragment u f = some v) :
    v.Host = u.Host ∧ v.Opaque = u.Opaque ∧ v.Scheme = u.Scheme := by
  unfold setFragment at h
  split at h
  · simp at h
  · injection h with h
    subst h
    exact ⟨rfl, rfl, rfl⟩

theorem setPath_isSome (u : URL) (p : Str) (h : (unescape encodePath p).isSome = true) :
    ∃ v, setPath u p = some v := by
  obtain ⟨t, ht⟩ := Option.isSome_iff_exists.1 h
  unfold setPath
  rw [ht]
  exact ⟨_, rfl⟩

theorem setFragment_isSome (u : URL) (f : Str)
    (h : (unescape encodeFragment f).isSome = true) : ∃ v, setFragment u f = some v := by
  obtain ⟨t, ht⟩ := Option.isSome_iff_exists.1 h
  unfold setFragment
  rw [ht]
  exact ⟨_, rfl⟩

/-- Reading back the part of a written URL before its fragment: scheme `S`, `//`,
authority `A`, path `P` and an optional bare `?`. -/
theorem parse_written (S A P Q H : Str)
    (hS : S = [] ∨ ∃ sch, SchemeOK sch ∧ S = sch ++ [':'])
    (hA1 : A ≠ []) (hA2 : '/' ∉ A) (hA3 : NoDelims A)
    (hA4 : ∃ usr, parseAuthority A = some (usr, H))
    (hP1 : P = [] ∨ ∃ t, P = '/' :: t) (hP2 : NoDelims P)
    (hP3 : (unescape encodePath P).isSome = true)
    (hQ : Q = [] ∨ Q = ['?']) :
    ∃ v, parse (S ++ '/' :: '/' :: (A ++ P) ++ Q) = some v ∧ v.Host = H := by
  -- the text after the scheme, without the bare question mark
  have hRq : '?' ∉ '/' :: '/' :: (A ++ P) := by
    intro hm
    rcases List.mem_cons.1 hm with e | hm
    · simp at e
    rcases List.mem_cons.1 hm with e | hm
    · simp at e
    rcases List.mem_append.1 hm with hm | hm
    · exact (hA3 _ hm).2.1 rfl
    · exact (hP2 _ hm).2.1 rfl
  have hRd : NoDelims ('/' :: '/' :: (A ++ P)) := by
    intro ch hch
    rcases List.mem_cons.1 hch with e | hch
    · subst e; decide
    rcases List.mem_cons.1 hch with e | hch
    · subst e; decide
    exact noDelims_append _ _ hA3 hP2 ch hch
  have hSd : NoDelims S := by
    rcases hS with e | ⟨sch, h1, e⟩
    · subst e; intro ch hch; simp at hch
    · subst e; exact (SchemeOK_noDelims sch h1).1
  have hQc : ∀ ch ∈ Q, ¬ (ch.toNat < 32 ∨ ch.toNat = 127) := by
    intro ch hch
    rcases hQ with e | e
    · subst e; simp at hch
    · subst e
      simp only [List.mem_singleton] at hch
      subst hch; decide
  -- 1. no control byte, and not the text "*"
  have hctl : stringContainsCTLByte (S ++ '/' :: '/' :: (A ++ P) ++ Q) = false := by
    rw [ctl_free_iff]
    intro ch hch
    rcases List.mem_append.1 hch with hch | hch
    · rcases List.mem_append.1 hch with hch | hch
      · exact (hSd ch hch).2.2
      · exact (hRd ch hch).2.2
    · exact hQc ch hch
  have hstar : S ++ '/' :: '/' :: (A ++ P) ++ Q ≠ ['*'] := by
    intro e
    have := congrArg List.length e
    simp only [List.length_append, List.length_cons, List.length_singleton, List.length_nil]
      at this
    omega
  -- 2. the scheme
  have hsch : ∃ sch, getScheme (S ++ '/' :: '/' :: (A ++ P) ++ Q) =
      some (sch, '/' :: '/' :: (A ++ P) ++ Q) := by
    rcases hS with e | ⟨sch, h1, e⟩
    · subst e
      refine ⟨[], ?_⟩
      simp only [List.nil_append, List.cons_append]
      unfold getScheme getSchemeAux
      rw [if_neg (by decide), if_neg (by decide), if_neg (by decide)]
    · subst e
      refine ⟨sch, ?_⟩
      have := getScheme_scheme sch ('/' :: '/' :: (A ++ P) ++ Q) h1
      simpa using this
  obtain ⟨sch, hsch⟩ := hsch
  -- 3. the query
  have hrest : (if (hasSuffix ('/' :: '/' :: (A ++ P) ++ Q) ['?'] = true ∧
        count '?' ('/' :: '/' :: (A ++ P) ++ Q) = 1)
      then ('/' :: '/' :: (A ++ P) ++ Q).dropLast
      else (cut '?' ('/' :: '/' :: (A ++ P) ++ Q)).1) = '/' :: '/' :: (A ++ P) := by
    rcases hQ with e | e
    · subst e
      rw [List.append_nil, if_neg (by rw [hasSuffix_of_not_mem _ _ hRq]; simp),
        cut_of_not_mem _ _ hRq]
    · subst e
      rw [if_pos ⟨hasSuffix_append_singleton _ _, count_append_singleton _ _ hRq⟩,
        List.dropLast_concat]
  -- 4. the authority and the path
  have hauth : (cut '/' (A ++ P)).1 = A := by
    rcases hP1 with e | ⟨t, e⟩
    · subst e
      rw [List.append_nil, cut_of_not_mem _ _ hA2]
    · subst e
      rw [cut_append _ _ _ hA2]
  obtain ⟨a, A', hAeq⟩ := List.exists_cons_of_ne_nil hA1
  have ha : a ≠ '/' := by
    intro e
    apply hA2
    rw [hAeq, e]
    exact List.mem_cons_self _ _
  have h3 : hasPrefix ('/' :: '/' :: (A ++ P)) ['/', '/', '/'] = false := by
    rw [hAeq]
    simp [hasPrefix, List.isPrefixOf, ha.symm]
  obtain ⟨usr, husr⟩ := hA4
  have hnp : ['/'].isPrefixOf (A ++ P) = false := by
    rw [hAeq]
    simp [List.isPrefixOf, ha.symm]
  have hdrop : List.drop 2 ('/' :: '/' :: (A ++ P)) = A ++ P := rfl
  unfold parse
  rw [hctl]
  simp only [Bool.false_eq_true, if_false, hstar, hsch]
  simp only [decide_eq_true_eq]
  rw [hrest]
  simp only [hasPrefix, List.isPrefixOf, beq_self_eq_true, Bool.true_and, not_true_eq_false,
    false_and, if_false]
  rw [if_pos ⟨Or.inr (by rw [hnp]; simp), trivial⟩, hdrop, hauth, husr]
  simp only [List.drop_left]
  obtain ⟨v, hv⟩ := setPath_isSome
    { Scheme := toLower sch,
      ForceQuery := decide (hasSuffix ('/' :: '/' :: (A ++ P) ++ Q) ['?'] = true ∧
        count '?' ('/' :: '/' :: (A ++ P) ++ Q) = 1),
      RawQuery := if (hasSuffix ('/' :: '/' :: (A ++ P) ++ Q) ['?'] = true ∧
        count '?' ('/' :: '/' :: (A ++ P) ++ Q) = 1) then []
        else (cut '?' ('/' :: '/' :: (A ++ P) ++ Q)).2.1,
      User := usr, Host := H } P hP3
  exact ⟨v, hv, (setPath_host _ _ _ hv).1⟩

/-- Reading back a written URL with host `H`: whatever the scheme, user
information, path, bare `?` and fragment written around it, `url.Parse` accepts
the text and finds the host `H`. -/
theorem Parse_written (S A P Q F H : Str)
    (hS : S = [] ∨ ∃ sch, SchemeOK sch ∧ S = sch ++ [':'])
    (hA1 : A ≠ []) (hA2 : '/' ∉ A) (hA3 : NoDelims A)
    (hA4 : ∃ usr, parseAuthority A = some (usr, H))
    (hP1 : P = [] ∨ ∃ t, P = '/' :: t) (hP2 : NoDelims P)
    (hP3 : (unescape encodePath P).isSome = true)
    (hQ : Q = [] ∨ Q = ['?'])
    (hF : F = [] ∨ ∃ frag, F = '#' :: frag ∧ (unescape encodeFragment frag).isSome = true) :
    ∃ v, Parse (S ++ '/' :: '/' :: (A ++ P) ++ Q ++ F) = some v ∧ v.Host = H := by
  obtain ⟨v0, hv0, hh0⟩ := parse_written S A P Q H hS hA1 hA2 hA3 hA4 hP1 hP2 hP3 hQ
  have hX : '#' ∉ S ++ '/' :: '/' :: (A ++ P) ++ Q := by
    intro hm
    rcases List.mem_append.1 hm with hm | hm
    · rcases List.mem_append.1 hm with hm | hm
      · rcases hS with e | ⟨sch, h1, e⟩
        · subst e; simp at hm
        · subst e; exact ((SchemeOK_noDelims sch h1).1 _ hm).1 rfl
      · rcases List.mem_cons.1 hm with e | hm
        · simp at e
        rcases List.mem_cons.1 hm with e | hm
        · simp at e
        rcases List.mem_append.1 hm with hm | hm
        · exact (hA3 _ hm).1 rfl
        · exact (hP2 _ hm).1 rfl
    · rcases hQ with e | e
      · subst e; simp at hm
      · subst e; simp at hm
  rcases hF with e | ⟨frag, e, hfr⟩
  · subst e
    refine ⟨v0, ?_, hh0⟩
    unfold Parse
    rw [List.append_nil, cut_of_not_mem _ _ hX]
    simp only [hv0, if_true]
  · subst e
    unfold Parse
    rw [cut_append _ _ _ hX]
    simp only [hv0]
    by_cases hfe : frag = []
    · exact ⟨v0, by rw [if_pos hfe], hh0⟩
    · obtain ⟨v, hv⟩ := setFragment_isSome v0 frag hfr
      refine ⟨v, by rw [if_neg hfe]; exact hv, ?_⟩
      rw [(setFragment_host _ _ _ hv).1]
      exact hh0

theorem parseAuthority_host (authority : Str) (user : Option Userinfo) (host : Str)
    (h : parseAuthority authority = some (user, host)) : ∃ raw, parseHost raw = some host := by
  unfold parseAuthority at h
  split at h
  · cases hp : parseHost authority with
    | none => rw [hp] at h; simp at h
    | some x =>
      rw [hp] at h
      simp only [Option.map_some', Option.some.injEq, Prod.mk.injEq] at h
      exact ⟨authority, by rw [hp, h.2]⟩
  · rename_i userinfo hostPart _
    split at h
    · simp at h
    · rename_i x hx
      refine ⟨hostPart, ?_⟩
      split at h
      · simp at h
      · split at h
        · cases hu : unescape encodeUserPassword userinfo with
          | none => rw [hu] at h; simp at h
          | some y =>
            rw [hu] at h
            simp only [Option.map_some', Option.some.injEq, Prod.mk.injEq] at h
            rw [hx, h.2]
        · simp only at h
          split at h
          · simp only [Option.some.injEq, Prod.mk.injEq] at h
            rw [hx, h.2]
          · simp at h

/-- The second half of `url.parse`, from the text after scheme and query on: a URL
with a host comes from the branch that reads an authority. -/
theorem parse_tail_host (u0 u : URL) (rest : Str) (h0 : u0.Host = [])
    (hp : (if ¬ hasPrefix rest ['/'] ∧ u0.Scheme ≠ [] then some { u0 with Opaque := rest }
      else if ¬ hasPrefix rest ['/'] ∧ ':' ∈ (cut '/' rest).1 then none
      else if (u0.Scheme ≠ [] ∨ ¬ hasPrefix rest ['/', '/', '/']) ∧ hasPrefix rest ['/', '/'] then
        match parseAuthority (cut '/' (rest.drop 2)).1 with
        | none => none
        | some (user, host) =>
          setPath { u0 with User := user, Host := host }
            ((rest.drop 2).drop (cut '/' (rest.drop 2)).1.length)
      else if u0.Scheme ≠ [] ∧ hasPrefix rest ['/'] then
        setPath { u0 with OmitHost := true } rest
      else setPath u0 rest) = some u)
    (hne : u.Host ≠ []) :
    u.Opaque = u0.Opaque ∧ u.Scheme = u0.Scheme ∧ ∃ raw, parseHost raw = some u.Host := by
  split at hp
  · injection hp with hp
    subst hp
    exact absurd h0 hne
  · split at hp
    · simp at hp
    · split at hp
      · split at hp
        · simp at hp
        · rename_i user host hpa
          obtain ⟨k1, k2, k3⟩ := setPath_host _ _ _ hp
          simp only at k1 k2 k3
          rw [k1, k2, k3]
          exact ⟨rfl, rfl, parseAuthority_host _ _ _ hpa⟩
      · split at hp
        · obtain ⟨k1, _, _⟩ := setPath_host _ _ _ hp
          exact absurd (k1.trans h0) hne
        · obtain ⟨k1, _, _⟩ := setPath_host _ _ _ hp
          exact absurd (k1.trans h0) hne

/-- What `url.Parse` guarantees about a URL with a host: nothing opaque, a
well-formed scheme or none, and a host that `parseHost` accepted. -/
theorem parse_host_facts (x : Str) (u : URL) (hp : parse x = some u) (hne : u.Host ≠ []) :
    u.Opaque = [] ∧ (u.Scheme = [] ∨ SchemeOK u.Scheme) ∧ ∃ raw, parseHost raw = some u.Host := by
  unfold parse at hp
  split at hp
  · simp at hp
  · split at hp
    · injection hp with hp
      subst hp
      exact absurd rfl hne
    · split at hp
      · simp at hp
      · rename_i scheme rest0 hgs
        have hscheme : toLower scheme = [] ∨ SchemeOK (toLower scheme) := by
          rcases getScheme_result _ _ _ hgs with ⟨e, _⟩ | ⟨h1, _⟩
          · subst e; exact Or.inl rfl
          · exact Or.inr (SchemeOK_toLower _ h1)
        obtain ⟨k1, k2, k3⟩ := parse_tail_host _ u _ rfl hp hne
        rw [k1, k2]
        exact ⟨rfl, hscheme, k3⟩

theorem Parse_host_facts (c : Str) (u : URL) (hp : Parse c = some u) (hne : u.Host ≠ []) :
    u.Opaque = [] ∧ (u.Scheme = [] ∨ SchemeOK u.Scheme) ∧ ∃ raw, parseHost raw = some u.Host := by
  unfold Parse at hp
  simp only at hp
  split at hp
  · simp at hp
  · rename_i url hurl
    split at hp
    · injection hp with hp
      subst hp
      exact parse_host_facts _ _ hurl hne
    · obtain ⟨k1, k2, k3⟩ := setFragment_host _ _ _ hp
      rw [k1, k2, k3]
      exact parse_host_facts _ _ hurl (by rw [← k1]; exact hne)

/-- A byte the host carries unescaped is none of the bytes that would end the
authority or make `url.Parse` refuse the text. -/
theorem host_byte_facts (ch : Char) (h : shouldEscape ch encodeHost = false) :
    ch ≠ '/' ∧ ch ≠ '@' ∧ ch ≠ '#' ∧ ch ≠ '?' ∧ ¬ (ch.toNat < 32 ∨ ch.toNat = 127) := by
  have hb := ascii_of_unescaped ch _ h
  revert h
  refine ascii_cases (fun r => shouldEscape r encodeHost = false →
    r ≠ '/' ∧ r ≠ '@' ∧ r ≠ '#' ∧ r ≠ '?' ∧ ¬ (r.toNat < 32 ∨ r.toNat = 127)) ?_ ch hb
  decide

theorem unescape_slash (p : Str) (h : (unescape encodePath p).isSome = true) :
    (unescape encodePath ('/' :: p)).isSome = true := by
  rw [unescape.eq_4 _ _ _ (by intro a b r h; simp at h) (by simp),
    if_neg (by simp [encodePath, encodeHost, encodeZone])]
  simpa using h

/-- Writing a parsed URL and reading it back keeps the host: for a URL that
`url.Parse` returned with a non-empty host of ASCII bytes other than `%`, the text
`String` writes once the query is cleared parses again, with the same host. -/
theorem Parse_String_host (c : Str) (u : URL) (hp : Parse c = some u) (hne : u.Host ≠ [])
    (hpl : ∀ ch ∈ u.Host, ch ≠ '%' ∧ ch.toNat < 128) :
    ∃ v, Parse ({ u with RawQuery := [] } : URL).String = some v ∧ v.Host = u.Host := by
  obtain ⟨hop, hsch, raw, hraw⟩ := Parse_host_facts c u hp hne
  obtain ⟨hH, hesc⟩ := parseHost_plain raw u.Host hraw hpl
  have hesc2 := escape_of_plain encodeHost u.Host hesc
  have hat : '@' ∉ u.Host := fun hm => (host_byte_facts _ (hesc _ hm)).2.1 rfl
  have hsl : '/' ∉ u.Host := fun hm => (host_byte_facts _ (hesc _ hm)).1 rfl
  have hHd : NoDelims u.Host := fun ch hm =>
    ⟨(host_byte_facts _ (hesc _ hm)).2.2.1, (host_byte_facts _ (hesc _ hm)).2.2.2.1,
      (host_byte_facts _ (hesc _ hm)).2.2.2.2⟩
  -- the parts of the written text
  let S : Str := if u.Scheme ≠ [] then u.Scheme ++ [':'] else []
  let U : Str := match u.User with
    | some ui => ui.String ++ ['@']
    | none => []
  let path : Str := ({ u with RawQuery := [] } : URL).EscapedPath
  let P : Str := (if path ≠ [] ∧ path.head? ≠ some '/' ∧ u.Host ≠ [] then ['/'] else []) ++ path
  let Q : Str := if u.ForceQuery then ['?'] else []
  let F : Str :=
    if u.Fragment ≠ [] then '#' :: ({ u with RawQuery := [] } : URL).EscapedFragment else []
  have hstr : ({ u with RawQuery := [] } : URL).String = S ++ '/' :: '/' :: ((U ++ u.Host) ++ P) ++ Q ++ F := by
    unfold URL.String
    simp only [hop, ne_eq, not_true_eq_false, if_false, hne, not_false_eq_true, or_true, true_or,
      if_true, false_and, and_false, hesc2]
    have hdot : ¬ ((S ++ ((['/', '/'] ++ U) ++ u.Host) ++
        (if path ≠ [] ∧ path.head? ≠ some '/' ∧ u.Host ≠ [] then ['/'] else []) = []) ∧
        ':' ∈ (cut '/' path).1) := by
      intro h
      have := congrArg List.length h.1
      simp at this
    by_cases hf : u.Fragment = [] <;> by_cases hq : u.ForceQuery = true <;>
      simp [S, U, P, Q, F, path, hf, hq, hne, hop, List.append_assoc]
  have hS : S = [] ∨ ∃ sch, SchemeOK sch ∧ S = sch ++ [':'] := by
    rcases hsch with e | h
    · left; simp [S, e]
    · right
      refine ⟨u.Scheme, h, ?_⟩
      obtain ⟨_, c0, t0, e, _⟩ := h
      simp [S, e]
  have hU : NoDelims U ∧ '/' ∉ U := by
    cases hu : u.User with
    | none => simp [U, hu, NoDelims]
    | some ui =>
      obtain ⟨k1, k2, _⟩ := Userinfo_String_ok ui
      refine ⟨?_, ?_⟩
      · simp only [U, hu]
        refine noDelims_append _ _ k1 ?_
        intro ch hch
        rw [List.mem_singleton] at hch
        subst hch
        decide
      · simp only [U, hu]
        intro hm
        rcases List.mem_append.1 hm with hm | hm
        · exact k2 hm
        · simp at hm
  have hA1 : U ++ u.Host ≠ [] := by
    intro h
    exact hne (List.append_eq_nil.1 h).2
  have hA2 : '/' ∉ U ++ u.Host := by
    intro hm
    rcases List.mem_append.1 hm with hm | hm
    · exact hU.2 hm
    · exact hsl hm
  have hA3 : NoDelims (U ++ u.Host) := noDelims_append _ _ hU.1 hHd
  have hA4 : ∃ usr, parseAuthority (U ++ u.Host) = some (usr, u.Host) :=
    parseAuthority_reparse u.User u.Host hH hat
  obtain ⟨hp2, hp3⟩ := EscapedPath_ok ({ u with RawQuery := [] } : URL)
  have hP1 : P = [] ∨ ∃ t, P = '/' :: t := by
    by_cases h1 : path = []
    · left; simp [P, h1]
    · right
      by_cases h2 : path.head? = some '/'
      · cases hpath : path with
        | nil => exact absurd hpath h1
        | cons a t =>
          rw [hpath] at h2
          simp only [List.head?_cons, Option.some.injEq] at h2
          subst h2
          refine ⟨t, ?_⟩
          simp [P, hpath]
      · exact ⟨path, by simp [P, h1, h2, hne]⟩
  have hP2 : NoDelims P := by
    refine noDelims_append _ _ ?_ hp2
    split
    · intro ch hch
      rw [List.mem_singleton] at hch
      subst hch
      decide
    · intro ch hch
      simp at hch
  have hP3 : (unescape encodePath P).isSome = true := by
    show (unescape encodePath ((if path ≠ [] ∧ path.head? ≠ some '/' ∧ u.Host ≠ [] then ['/']
      else []) ++ path)).isSome = true
    split
    · exact unescape_slash _ hp3
    · exact hp3
  have hQ : Q = [] ∨ Q = ['?'] := by
    by_cases hq : u.ForceQuery = true
    · right; simp [Q, hq]
    · left; simp [Q, hq]
  have hF : F = [] ∨ ∃ frag, F = '#' :: frag ∧ (unescape encodeFragment frag).isSome = true := by
    by_cases hf : u.Fragment = []
    · left; simp [F, hf]
    · right
      exact ⟨({ u with RawQuery := [] } : URL).EscapedFragment, by simp [F, hf],
        EscapedFragment_ok _⟩
  rw [hstr]
  exact Parse_written S (U ++ u.Host) P Q F u.Host hS hA1 hA2 hA3 hA4 hP1 hP2 hP3 hQ hF

/-- On `deafSite`, whose listener never receives, `Start` on a fresh crawler is
blocked at the send of the first page, whatever the fuel. -/
theorem Start_deafSite_blocked (l d : Nat) :
    Start deafSite l (d + 1) (newCrawler 5 false "https://x.com/".toList)
      "https://x.com/".toList =
    ⟨.blocked,
     { newCrawler 5 false "https://x.com/".toList with
       homepageURL := some (xcom "/".toList)
       Origin := "https://x.com".toList
       crawlDepth := 1
       fetched := ["https://x.com/".toList] }⟩ := by
  rw [Start_succ, if_neg (by decide), if_neg (by decide)]
  have hv : visit deafSite (newCrawler 5 false "https://x.com/".toList)
      "https://x.com/".toList =
      ⟨.blocked,
       { newCrawler 5 false "https://x.com/".toList with
         homepageURL := some (xcom "/".toList)
         Origin := "https://x.com".toList
         crawlDepth := 1
         fetched := ["https://x.com/".toList] }⟩ := by decide
  rw [hv]

/-! ## The claims -/

/-- C1. For a crawler whose fetch counter starts at 0 and whose `MaxFetches` is
positive, whatever the pages fetched, the initial Frontier and Visited contents and
the iteration order, at every point where an execution of `Start` can be stopped
the fetch counter is between 0 and `MaxFetches`, `MaxFetches` is unchanged, and the
number of fetches performed equals the counter, so it is at most `MaxFetches`. -/
theorem C1_fetch_counter_bounded (w : World) (l d : Nat) (s : State) (url : Str)
    (h0 : s.crawlDepth = 0) (hmax : 0 < s.MaxFetches) :
    (Start w l d s url).state.MaxFetches = s.MaxFetches ∧
    0 ≤ (Start w l d s url).state.crawlDepth ∧
    (Start w l d s url).state.crawlDepth ≤ s.MaxFetches ∧
    ((Start w l d s url).state.fetched.length : Int) =
      s.fetched.length + (Start w l d s url).state.crawlDepth ∧
    ((Start w l d s url).state.fetched.length : Int) - s.fetched.length ≤ s.MaxFetches := by
  obtain ⟨h1, h2, h3, h4⟩ := Start_counter w l d s url
  have h5 := h3 (by omega)
  refine ⟨h1, by omega, h5, by omega, by omega⟩

theorem C1_fetch_counter_bounded_witness :
    (newCrawler 3 false "https://x.com/".toList).crawlDepth = 0 ∧
    0 < (newCrawler 3 false "https://x.com/".toList).MaxFetches ∧
    (Start flakySite 5 5 (newCrawler 3 false "https://x.com/".toList)
      "https://x.com/".toList).state.crawlDepth ≤ 3 ∧
    ((Start flakySite 5 5 (newCrawler 3 false "https://x.com/".toList)
      "https://x.com/".toList).state.fetched.length : Int) - 0 ≤ 3 :=
  have h := C1_fetch_counter_bounded flakySite 5 5
    (newCrawler 3 false "https://x.com/".toList) "https://x.com/".toList rfl (by decide)
  ⟨rfl, by decide, h.2.2.1, h.2.2.2.2⟩

/-- C2. If `url` is already in Visited, `Start(url)` returns at once and leaves the
whole state as it was: no fetch, no notification, and the fetch counter, the
Origin, the Frontier and Visited are unchanged. -/
theorem C2_start_on_visited_url_is_noop (w : World) (l d : Nat) (s : State) (url : Str)
    (h : url ∈ s.alreadyIndexedUrls) :
    Start w l (d + 1) s url = ⟨.returned, s⟩ :=
  Start_visited w l d s url h

theorem C2_start_on_visited_url_is_noop_witness :
    "https://x.com/".toList ∈ (onXcom false).alreadyIndexedUrls ∧
    Start flakySite 5 5 (onXcom false) "https://x.com/".toList = ⟨.returned, onXcom false⟩ :=
  ⟨by decide,
   C2_start_on_visited_url_is_noop flakySite 5 4 (onXcom false) "https://x.com/".toList
     (by decide)⟩

/-- C8. `WasIndexed(url)` is true exactly when `url` is absent from Visited and
false exactly when it is present; and once `Start` has fetched and parsed a page at
`url` and handed it to the listener, `WasIndexed(url)` is false, wherever the
execution stops afterwards. -/
theorem C8_wasIndexed_polarity (w : World) (l d : Nat) (s : State) (url : Str) :
    (WasIndexed s url = true ↔ url ∉ s.alreadyIndexedUrls) ∧
    (WasIndexed s url = false ↔ url ∈ s.alreadyIndexedUrls) ∧
    (∀ s1 doc, s.crawlDepth < s.MaxFetches → url ∉ s.alreadyIndexedUrls →
      firstCrawl s url = some s1 → w.fetch s.fetched.length url = .html doc →
      w.receive s.OnPageLoadedListener.length = true →
      WasIndexed (Start w l (d + 1) s url).state url = false) := by
  refine ⟨by simp [WasIndexed], by simp [WasIndexed], ?_⟩
  intro s1 doc hlt hnew hfc hfetch hrecv
  have h1 := Start_visited_after_visit w l d s url hlt hnew
  have h2 := visit_html_visited w s s1 url doc hfc hfetch hrecv
  have h3 : url ∈ (visit w s url).state.alreadyIndexedUrls := by
    rw [h2]
    exact subset_setKey _ _ (mem_setKey_self _ _)
  simp [WasIndexed, h1 h3]

theorem C8_wasIndexed_polarity_witness :
    WasIndexed
      (Start canonicalSite 5 5 (newCrawler 5 false "https://x.com/page1".toList)
        "https://x.com/page1".toList).state
      "https://x.com/page1".toList = false :=
  (C8_wasIndexed_polarity canonicalSite 5 4
    (newCrawler 5 false "https://x.com/page1".toList) "https://x.com/page1".toList).2.2
    { newCrawler 5 false "https://x.com/page1".toList with
      homepageURL := some (xcom "/page1".toList)
      Origin := "https://x.com".toList }
    ⟨[some "/p2".toList], []⟩ (by decide) (by decide) (by decide) (by decide) (by decide)

/-- C9. On a state whose Visited set holds `https://x.com/`, `WasIndexed` returns
false for that URL, and true for a URL that has never been indexed. -/
theorem C9_wasIndexed_inverted :
    WasIndexed
      { newCrawler 3 false "https://x.com/".toList with
        alreadyIndexedUrls := ["https://x.com/".toList] }
      "https://x.com/".toList = false ∧
    WasIndexed (newCrawler 3 false "https://x.com/".toList) "https://x.com/".toList = true := by
  decide

/-- C3 (as stated, refuted). With five fetches allowed, the home page of `flakySite`
links to `/a` and `/b`; fetching `/a` fails, and `/a` is fetched a second time after
`/b` has been crawled. -/
theorem C3_failed_url_is_refetched :
    (Begin flakySite 5 5 (newCrawler 5 false "https://x.com/".toList)).status = .returned ∧
    (Begin flakySite 5 5 (newCrawler 5 false "https://x.com/".toList)).state.fetched =
      ["https://x.com/".toList, "https://x.com/a".toList, "https://x.com/b".toList,
       "https://x.com/a".toList] ∧
    RefetchedAfterFailure flakySite
      (Begin flakySite 5 5 (newCrawler 5 false "https://x.com/".toList)).state.fetched := by
  refine ⟨by decide, by decide, 1, 3, "https://x.com/a".toList, by decide, by decide, by decide,
    by decide⟩

/-- C3 (amended). A `Start` that passes both guards and whose fetch returns an empty
result returns at once: it performs that one fetch, counts it, and changes nothing
else apart from what the first crawl sets; in particular the URL is not put in
Visited, so nothing prevents a later `Start` from fetching it again. -/
theorem C3_failed_fetch_ends_invocation (w : World) (l d : Nat) (s s1 : State) (url : Str)
    (hlt : s.crawlDepth < s.MaxFetches) (hnew : url ∉ s.alreadyIndexedUrls)
    (hfc : firstCrawl s url = some s1) (hfetch : w.fetch s.fetched.length url = .empty) :
    Start w l (d + 1) s url =
      ⟨.returned, { s1 with crawlDepth := s1.crawlDepth + 1,
                            fetched := s1.fetched ++ [url] }⟩ ∧
    url ∉ (Start w l (d + 1) s url).state.alreadyIndexedUrls ∧
    (Start w l (d + 1) s url).state.urlIndex = s.urlIndex := by
  have hf := firstCrawl_frame s s1 url hfc
  have e5 : s1.fetched = s.fetched := by rw [hf]
  have e6 : s1.alreadyIndexedUrls = s.alreadyIndexedUrls := by rw [hf]
  have e7 : s1.urlIndex = s.urlIndex := by rw [hf]
  have hv : visit w s url =
      ⟨.returned, { s1 with crawlDepth := s1.crawlDepth + 1,
                            fetched := s1.fetched ++ [url] }⟩ := by
    unfold visit
    rw [hfc]
    simp only [e5, hfetch]
  have hs : Start w l (d + 1) s url =
      ⟨.returned, { s1 with crawlDepth := s1.crawlDepth + 1,
                            fetched := s1.fetched ++ [url] }⟩ := by
    rw [Start_succ, if_neg (by omega), if_neg hnew, hv]
  rw [hs]
  exact ⟨rfl, by simpa [e6] using hnew, e7⟩

theorem C3_failed_fetch_ends_invocation_witness :
    Start flakySite 5 5 (onXcom false) "https://x.com/a".toList =
      ⟨.returned, { onXcom false with
        crawlDepth := (onXcom false).crawlDepth + 1,
        fetched := (onXcom false).fetched ++ ["https://x.com/a".toList] }⟩ ∧
    "https://x.com/a".toList ∉
      (Start flakySite 5 5 (onXcom false) "https://x.com/a".toList).state.alreadyIndexedUrls ∧
    (Start flakySite 5 5 (onXcom false) "https://x.com/a".toList).state.urlIndex =
      (onXcom false).urlIndex :=
  C3_failed_fetch_ends_invocation flakySite 5 4 (onXcom false) (onXcom false)
    "https://x.com/a".toList (by decide) (by decide) (by decide) (by decide)

/-- C4 (as stated, refuted). With `IgnoreQueryParams` set, the href `/a?x=1` on a
page of `https://x.com` is considered as `https://x.com/a?x=1`, which parses with
the start URL's host, yet that URL is not added to the Frontier: the entry added is
`https://x.com/a`. -/
theorem C4_considered_url_not_added :
    resolveHref (onXcom true).Origin "/a?x=1".toList = some "https://x.com/a?x=1".toList ∧
    (Parse "https://x.com/a?x=1".toList).map URL.Host = some "x.com".toList ∧
    (onXcom true).homepageURL.map URL.Host = some "x.com".toList ∧
    (eachAnchor (onXcom true) (some "/a?x=1".toList)).state.urlIndex =
      ["https://x.com/a".toList] ∧
    "https://x.com/a?x=1".toList ∉
      (eachAnchor (onXcom true) (some "/a?x=1".toList)).state.urlIndex := by
  decide

/-- C4 (amended). For a page that `Start` has fetched, parsed and handed to the
listener, with `Origin` and the start URL's host as in force for that page: an href
starting with `/` is considered as `Origin ++ h`, another href starting with `http`
as it stands, and any other href not at all.  If some considered URL of the page
does not parse, the process ends.  Otherwise control reaches the end of the page
and, when `IgnoreQueryParams` is unset, the Frontier then holds, besides what it
held before, exactly the considered URLs that parse with the start URL's host; when
it is set, every new entry comes from such a URL, and such a URL whose query is not
a bare `?` has its re-serialisation with an empty query in the Frontier.  The
entries stay in the Frontier until `Start` stops, and when the fetch was the last
the budget allows `Start` returns with exactly that state.  With start URL
`https://x.com/` and hrefs `/a`, `/b`, `https://other.com/c` the Frontier becomes
exactly `https://x.com/a`, `https://x.com/b`, whether or not `IgnoreQueryParams` is
set. -/
theorem C4_link_collection (w : World) (l d : Nat) (s s1 : State) (url : Str)
    (doc : Document) (home : URL)
    (hlt : s.crawlDepth < s.MaxFetches) (hnew : url ∉ s.alreadyIndexedUrls)
    (hfc : firstCrawl s url = some s1) (hhome : s1.homepageURL = some home)
    (hfetch : w.fetch s.fetched.length url = .html doc)
    (hrecv : w.receive s.OnPageLoadedListener.length = true) :
    ((∃ h c, some h ∈ doc.anchors ∧ Considered s1.Origin h c ∧ Parse c = none) →
      (Start w l (d + 1) s url).status = .crashed) ∧
    ((∀ h c, some h ∈ doc.anchors → Considered s1.Origin h c → Parse c ≠ none) →
      (visit w s url).status = .running ∧
      (s.IgnoreQueryParams = false →
        ∀ e, e ∈ (visit w s url).state.urlIndex ↔
          (e ∈ s.urlIndex ∨
           ∃ h u, some h ∈ doc.anchors ∧ Considered s1.Origin h e ∧ Parse e = some u ∧
             u.Host = home.Host)) ∧
      (s.IgnoreQueryParams = true →
        (∀ h c u, some h ∈ doc.anchors → Considered s1.Origin h c → Parse c = some u →
          u.Host = home.Host → u.ForceQuery = false →
          ({ u with RawQuery := [] } : URL).String ∈ (visit w s url).state.urlIndex) ∧
        (∀ e ∈ (visit w s url).state.urlIndex,
          e ∈ s.urlIndex ∨
          ∃ h c u, some h ∈ doc.anchors ∧ Considered s1.Origin h c ∧ Parse c = some u ∧
            u.Host = home.Host ∧
            (u.ForceQuery = false → e = ({ u with RawQuery := [] } : URL).String))) ∧
      (visit w s url).state.urlIndex ⊆ (Start w l (d + 1) s url).state.urlIndex ∧
      (¬ (s.crawlDepth + 1 < s.MaxFetches) →
        Start w l (d + 1) s url = ⟨.returned, (visit w s url).state⟩)) ∧
    (∀ q : Bool,
      (Begin threeLinks 5 5 (newCrawler 1 q "https://x.com/".toList)).state.urlIndex =
        ["https://x.com/a".toList, "https://x.com/b".toList]) := by
  have hf := firstCrawl_frame s s1 url hfc
  have e2 : s1.urlIndex = s.urlIndex := by rw [hf]
  have e3 : s1.IgnoreQueryParams = s.IgnoreQueryParams := by rw [hf]
  have hv := visit_html w s s1 url doc hfc hfetch hrecv
  refine ⟨?_, ?_, ?_⟩
  · rintro ⟨h, c, hm, hc, hp⟩
    have hcr := eachAnchors_crash home doc.anchors
      { s1 with crawlDepth := s1.crawlDepth + 1, fetched := s1.fetched ++ [url],
                OnPageLoadedListener := s1.OnPageLoadedListener ++ [⟨url, doc⟩],
                alreadyIndexedUrls :=
                  setKey (setKey s1.alreadyIndexedUrls url) (canonicalURL s1.Origin url doc) }
      hhome ⟨h, c, hm, (resolveHref_iff _ _ _).2 hc, hp⟩
    rw [← hv] at hcr
    rw [Start_succ, if_neg (by omega), if_neg hnew]
    generalize visit w s url = r at hcr
    obtain ⟨st, s2⟩ := r
    simp only at hcr
    subst hcr
    rfl
  · intro hall
    obtain ⟨x1, x2⟩ := eachAnchors_exact home doc.anchors
      { s1 with crawlDepth := s1.crawlDepth + 1, fetched := s1.fetched ++ [url],
                OnPageLoadedListener := s1.OnPageLoadedListener ++ [⟨url, doc⟩],
                alreadyIndexedUrls :=
                  setKey (setKey s1.alreadyIndexedUrls url) (canonicalURL s1.Origin url doc) }
      hhome (fun h c hm hc => hall h c hm ((resolveHref_iff _ _ _).1 hc))
    rw [← hv] at x1 x2
    simp only [e2, e3] at x2
    refine ⟨x1, ?_, ?_, Start_frontier_after_visit w l d s url hlt hnew, ?_⟩
    · intro hq e
      rw [x2 e, hq]
      constructor
      · rintro (he | ⟨h, c, u, hm, hc, hp, hh, he⟩)
        · exact Or.inl he
        · have he2 : e = c := he
          subst he2
          exact Or.inr ⟨h, u, hm, (resolveHref_iff _ _ _).1 hc, hp, hh⟩
      · rintro (he | ⟨h, u, hm, hc, hp, hh⟩)
        · exact Or.inl he
        · exact Or.inr ⟨h, e, u, hm, (resolveHref_iff _ _ _).2 hc, hp, hh, rfl⟩
    · intro hq
      refine ⟨?_, ?_⟩
      · intro h c u hm hc hp hh _
        rw [x2, hq]
        exact Or.inr ⟨h, c, u, hm, (resolveHref_iff _ _ _).2 hc, hp, hh, rfl⟩
      · intro e he
        rw [x2, hq] at he
        rcases he with he | ⟨h, c, u, hm, hc, hp, hh, he⟩
        · exact Or.inl he
        · exact Or.inr ⟨h, c, u, hm, (resolveHref_iff _ _ _).1 hc, hp, hh, fun _ => he⟩
    · intro hlast
      obtain ⟨f1, _, _, f4, _, _⟩ := visit_fields w s url
      rw [Start_succ, if_neg (by omega), if_neg hnew]
      generalize visit w s url = r at x1 f1 f4
      obtain ⟨st, s2⟩ := r
      simp only at x1 f1 f4
      subst x1
      rcases f4 with f4 | ⟨f4, _⟩
      · simp at f4
      · simp only
        rw [if_neg (by omega)]
  · intro q
    cases q <;> decide

theorem C4_link_collection_witness :
    "https://x.com/a".toList ∈
      (Start queryLinks 5 5 (newCrawler 1 true "https://x.com/".toList)
        "https://x.com/".toList).state.urlIndex :=
  have h := (C4_link_collection queryLinks 5 4
    (newCrawler 1 true "https://x.com/".toList)
    { newCrawler 1 true "https://x.com/".toList with
      homepageURL := some (xcom "/".toList)
      Origin := "https://x.com".toList }
    "https://x.com/".toList
    ⟨[], [some "https://x.com/a?".toList, some "https://x.com/a?x=1".toList]⟩
    (xcom "/".toList)
    (by decide) (by decide) (by decide) (by decide) (by decide) (by decide)).2.1
    (by
      intro h c hm hc hp
      simp only [List.mem_cons, Option.some.injEq, List.mem_singleton, List.not_mem_nil,
        or_false] at hm
      rcases hm with hm | hm <;> subst hm <;>
        rcases hc with ⟨h1, _⟩ | ⟨_, _, h3⟩
      · exact absurd h1 (by decide)
      · subst h3; exact absurd hp (by decide)
      · exact absurd h1 (by decide)
      · subst h3; exact absurd hp (by decide))
  h.2.2.2.1
    ((h.2.2.1 (by decide)).1 "https://x.com/a?x=1".toList "https://x.com/a?x=1".toList
      { xcom "/a".toList with RawQuery := "x=1".toList }
      (by decide) (Or.inr ⟨by decide, by decide, rfl⟩) (by decide) (by decide) (by decide))

/-- C5 (as stated, refuted). Started on `https://x.com/`, the crawl adds
`http://x.com/a` to the Frontier: its host is the start URL's but its scheme is
`http`, not `https`. -/
theorem C5_frontier_entry_with_other_scheme :
    (Begin mixedScheme 5 5 (newCrawler 1 false "https://x.com/".toList)).status = .returned ∧
    (Begin mixedScheme 5 5 (newCrawler 1 false "https://x.com/".toList)).state.urlIndex =
      ["http://x.com/a".toList] ∧
    (Parse "http://x.com/a".toList).map URL.Scheme = some "http".toList ∧
    (Parse "https://x.com/".toList).map URL.Scheme = some "https".toList ∧
    (Parse "http://x.com/a".toList).map URL.Host =
      (Parse "https://x.com/".toList).map URL.Host := by
  decide

/-- C5 (amended). In a crawl whose fetch counter starts at 0, every URL added to the
Frontier comes from a link URL that parses with the same host as the start URL: it
is that link URL itself or, when `IgnoreQueryParams` is set, its re-serialisation
with the query removed.  Whenever `IgnoreQueryParams` is unset, or the start URL's
host is non-empty and made of ASCII bytes other than `%`, the added URL itself
parses with a host equal to the start URL's host.  The scheme is not compared. -/
theorem C5_frontier_entries_on_start_host (w : World) (l d : Nat) (s : State) (url : Str)
    (h0 : s.crawlDepth = 0) :
    ∀ e ∈ (Start w l d s url).state.urlIndex,
      e ∈ s.urlIndex ∨
      ∃ home c u, Parse url = some home ∧ Parse c = some u ∧ u.Host = home.Host ∧
        e = (if s.IgnoreQueryParams then ({ u with RawQuery := [] } : URL).String else c) ∧
        ((s.IgnoreQueryParams = false ∨
            (home.Host ≠ [] ∧ ∀ ch ∈ home.Host, ch ≠ '%' ∧ ch.toNat < 128)) →
          ∃ v, Parse e = some v ∧ v.Host = home.Host) := by
  have own : ∀ (home : URL) (e c : Str) (u : URL), Parse c = some u → u.Host = home.Host →
      e = frontierEntry s.IgnoreQueryParams c u →
      e = (if s.IgnoreQueryParams then ({ u with RawQuery := [] } : URL).String else c) ∧
      ((s.IgnoreQueryParams = false ∨
          (home.Host ≠ [] ∧ ∀ ch ∈ home.Host, ch ≠ '%' ∧ ch.toNat < 128)) →
        ∃ v, Parse e = some v ∧ v.Host = home.Host) := by
    intro home e c u k1 k2 k3
    refine ⟨k3, ?_⟩
    intro hh
    cases hq : s.IgnoreQueryParams with
    | false =>
      refine ⟨u, ?_, k2⟩
      rw [k3, hq]
      exact k1
    | true =>
      rcases hh with hh | ⟨hne, hpl⟩
      · rw [hq] at hh; cases hh
      · obtain ⟨v, hv, hvh⟩ := Parse_String_host c u k1 (by rw [k2]; exact hne)
          (by rw [k2]; exact hpl)
        refine ⟨v, ?_, hvh.trans k2⟩
        rw [k3, hq]
        exact hv
  intro e he
  cases d with
  | zero => exact Or.inl he
  | succ d =>
    by_cases hlt : s.crawlDepth < s.MaxFetches
    swap
    · rw [Start_succ, if_pos (by omega)] at he
      exact Or.inl he
    by_cases hnew : url ∈ s.alreadyIndexedUrls
    · rw [Start_visited w l d s url hnew] at he
      exact Or.inl he
    cases hp : Parse url with
    | none =>
      have hfc : firstCrawl s url = none := by
        unfold firstCrawl
        rw [if_pos (by omega), hp]
      have hv : visit w s url = ⟨.crashed, s⟩ := by
        unfold visit; rw [hfc]
      rw [Start_succ, if_neg (by omega), if_neg hnew, hv] at he
      exact Or.inl he
    | some home =>
      have hfc := firstCrawl_first s url home (by omega) hp
      obtain ⟨v1, v2, v3, v4⟩ := visit_scope w home s _ url hfc rfl
      have key := Start_rel_visit w
        (fun a b => 1 ≤ a.crawlDepth → a.homepageURL = some home →
          1 ≤ b.crawlDepth ∧ b.homepageURL = some home ∧
          b.IgnoreQueryParams = a.IgnoreQueryParams ∧
          ∀ e ∈ b.urlIndex, e ∈ a.urlIndex ∨
            ∃ c u, Parse c = some u ∧ u.Host = home.Host ∧
              e = frontierEntry a.IgnoreQueryParams c u)
        ?_ ?_ ?_ ?_ l d s url hlt hnew
      · have h4 := (key (by omega) v1).2.2.2 e he
        rcases h4 with h4 | ⟨c, u, k1, k2, k3⟩
        · rcases v4 e h4 with h5 | ⟨c, u, k1, k2, k3⟩
          · exact Or.inl h5
          · exact Or.inr ⟨home, c, u, rfl, k1, k2, own home e c u k1 k2 k3⟩
        · rw [v3] at k3
          exact Or.inr ⟨home, c, u, rfl, k1, k2, own home e c u k1 k2 k3⟩
      · intro a h1 h2
        exact ⟨h1, h2, rfl, fun e he => Or.inl he⟩
      · intro a b c hab hbc h1 h2
        obtain ⟨b1, b2, b3, b4⟩ := hab h1 h2
        obtain ⟨c1, c2, c3, c4⟩ := hbc b1 b2
        refine ⟨c1, c2, by rw [c3, b3], ?_⟩
        intro e he
        rcases c4 e he with h | h
        · exact b4 e h
        · rw [b3] at h; exact Or.inr h
      · intro a h1 h2
        exact ⟨h1, h2, rfl, fun e he => Or.inl he⟩
      · intro a u _ _ h1 h2
        have hfc : firstCrawl a u = some a := by
          unfold firstCrawl
          rw [if_neg (by omega)]
        obtain ⟨v1, v2, v3, v4⟩ := visit_scope w home a a u hfc h2
        exact ⟨by omega, v1, v3, v4⟩

theorem C5_frontier_entries_on_start_host_witness :
    (newCrawler 5 true "https://x.com/".toList).crawlDepth = 0 ∧
    (Start queryLinks 5 5 (newCrawler 5 true "https://x.com/".toList)
        "https://x.com/".toList).state.urlIndex ≠ [] ∧
    ∀ e ∈ (Start queryLinks 5 5 (newCrawler 5 true "https://x.com/".toList)
        "https://x.com/".toList).state.urlIndex,
      ∃ v, Parse e = some v ∧ v.Host = "x.com".toList := by
  refine ⟨rfl, by decide, ?_⟩
  intro e he
  rcases C5_frontier_entries_on_start_host queryLinks 5 5
    (newCrawler 5 true "https://x.com/".toList) "https://x.com/".toList rfl e he with
    h | ⟨home, c, u, k1, _, _, _, k5⟩
  · exact absurd h (List.not_mem_nil e)
  · have hk : Parse "https://x.com/".toList = some (xcom "/".toList) := by decide
    have hhome : home = xcom "/".toList := Option.some.inj (k1.symm.trans hk)
    subst hhome
    exact k5 (Or.inr ⟨by decide, by decide⟩)

/-- C6 (as stated, refuted). The page fetched at `https://x.com/page1` has two
elements matching `link[rel='canonical']`, with hrefs `/p1` and `/p2`.  After
`Start` has processed it, `https://x.com/p2` is not in Visited. -/
theorem C6_second_canonical_not_visited :
    some "/p2".toList ∈ ([some "/p1".toList, some "/p2".toList] : List (Option Str)) ∧
    twoCanonicals.fetch 0 "https://x.com/page1".toList =
      .html ⟨[some "/p1".toList, some "/p2".toList], []⟩ ∧
    (Begin twoCanonicals 5 5 (newCrawler 5 false "https://x.com/page1".toList)).status =
      .returned ∧
    (Begin twoCanonicals 5 5 (newCrawler 5 false "https://x.com/page1".toList)).state.Origin =
      "https://x.com".toList ∧
    (Begin twoCanonicals 5 5
      (newCrawler 5 false "https://x.com/page1".toList)).state.alreadyIndexedUrls =
      ["https://x.com/page1".toList, "https://x.com/p1".toList] ∧
    "https://x.com/p2".toList ∉
      (Begin twoCanonicals 5 5
        (newCrawler 5 false "https://x.com/page1".toList)).state.alreadyIndexedUrls := by
  decide

/-- C6 (amended). For a page fetched at `url` with a non-empty body that parses into
a document and is received by the listener: after `Start` has processed the page,
wherever the execution stops, `url` is in Visited, and if the first element
matching `link[rel='canonical']` has an href `h` then `Origin ++ h` is in Visited
too, `Origin` being the origin in force when the page is processed. -/
theorem C6_canonical_visited (w : World) (l d : Nat) (s s1 : State) (url : Str)
    (doc : Document)
    (hlt : s.crawlDepth < s.MaxFetches) (hnew : url ∉ s.alreadyIndexedUrls)
    (hfc : firstCrawl s url = some s1) (hfetch : w.fetch s.fetched.length url = .html doc)
    (hrecv : w.receive s.OnPageLoadedListener.length = true) :
    url ∈ (Start w l (d + 1) s url).state.alreadyIndexedUrls ∧
    (∀ h, doc.canonical.head? = some (some h) →
      s1.Origin ++ h ∈ (Start w l (d + 1) s url).state.alreadyIndexedUrls) := by
  have h1 := Start_visited_after_visit w l d s url hlt hnew
  have h2 := visit_html_visited w s s1 url doc hfc hfetch hrecv
  refine ⟨?_, ?_⟩
  · apply h1
    rw [h2]
    exact subset_setKey _ _ (mem_setKey_self _ _)
  · intro h hh
    apply h1
    rw [h2]
    have hc : canonicalURL s1.Origin url doc = s1.Origin ++ h := by
      unfold canonicalURL
      cases hd : doc.canonical with
      | nil => rw [hd] at hh; simp at hh
      | cons a rest =>
        rw [hd] at hh
        simp only [List.head?_cons, Option.some.injEq] at hh
        rw [hh]
    rw [hc]
    exact mem_setKey_self _ _

theorem C6_canonical_visited_witness :
    "https://x.com/page1".toList ∈
      (Start canonicalSite 5 5 (newCrawler 5 false "https://x.com/page1".toList)
        "https://x.com/page1".toList).state.alreadyIndexedUrls ∧
    "https://x.com/p2".toList ∈
      (Start canonicalSite 5 5 (newCrawler 5 false "https://x.com/page1".toList)
        "https://x.com/page1".toList).state.alreadyIndexedUrls :=
  have h := C6_canonical_visited canonicalSite 5 4
    (newCrawler 5 false "https://x.com/page1".toList)
    { newCrawler 5 false "https://x.com/page1".toList with
      homepageURL := some (xcom "/page1".toList)
      Origin := "https://x.com".toList }
    "https://x.com/page1".toList ⟨[some "/p2".toList], []⟩
    (by decide) (by decide) (by decide) (by decide) (by decide)
  ⟨h.1, h.2 "/p2".toList (by decide)⟩

/-- C7. With `IgnoreQueryParams` set, a page of `https://x.com/` links to
`https://x.com/a?` (empty query) and to `https://x.com/a?x=1`, two hrefs that differ
only in their query string.  The entries added for them differ: `https://x.com/a?`
and `https://x.com/a`, the latter being also the entry of `https://x.com/a`. -/
theorem C7_empty_query_keeps_question_mark :
    (eachAnchor (onXcom true) (some "https://x.com/a?".toList)).state.urlIndex =
      ["https://x.com/a?".toList] ∧
    (eachAnchor (onXcom true) (some "https://x.com/a?x=1".toList)).state.urlIndex =
      ["https://x.com/a".toList] ∧
    (eachAnchor (onXcom true) (some "https://x.com/a".toList)).state.urlIndex =
      ["https://x.com/a".toList] ∧
    (Begin queryLinks 5 5 (newCrawler 1 true "https://x.com/".toList)).status = .returned ∧
    (Begin queryLinks 5 5 (newCrawler 1 true "https://x.com/".toList)).state.urlIndex =
      ["https://x.com/a?".toList, "https://x.com/a".toList] := by
  decide

/-- C10 (as stated, refuted). The listener of `deafSite` never receives.  On a
crawler with `MaxFetches = 5` and fetch counter 0, `Start` fetches and parses the
first page, a finite one, and then waits on the send for ever: the execution is
blocked, having counted one fetch, and `Start` does not return.  More fuel changes
nothing (`Start_deafSite_blocked`). -/
theorem C10_start_blocks_on_unread_listener :
    (newCrawler 5 false "https://x.com/".toList).MaxFetches = 5 ∧
    (newCrawler 5 false "https://x.com/".toList).crawlDepth = 0 ∧
    Start deafSite 10 6 (newCrawler 5 false "https://x.com/".toList)
        "https://x.com/".toList =
      ⟨.blocked,
       { newCrawler 5 false "https://x.com/".toList with
         homepageURL := some (xcom "/".toList)
         Origin := "https://x.com".toList
         crawlDepth := 1
         fetched := ["https://x.com/".toList] }⟩ :=
  ⟨rfl, rfl, Start_deafSite_blocked 10 5⟩

/-- C10 (amended). For every crawler state, every world and every URL: given enough
loop steps and a nesting allowance of the remaining fetch budget
`MaxFetches - crawlDepth` plus one, the execution of `Start` is complete -- it has
returned, the process has ended, or it waits on the listener -- so `Start`
invocations never nest deeper than that; and if the listener receives every page
sent to it, `Start` terminates: it returns or the process ends. -/
theorem C10_start_terminates_within_budget_depth (w : World) (s : State) (url : Str) :
    ∃ L, ∀ l ≥ L, ∀ d ≥ (s.MaxFetches - s.crawlDepth).toNat + 1,
      ((Start w l d s url).status = .returned ∨ (Start w l d s url).status = .crashed ∨
        (Start w l d s url).status = .blocked) ∧
      ((∀ n, w.receive n = true) →
        (Start w l d s url).status = .returned ∨ (Start w l d s url).status = .crashed) := by
  obtain ⟨L, hL⟩ := Start_terminates w (State.budget s) s url (le_refl _)
  refine ⟨L, ?_⟩
  intro l hl d hd
  have h := hL l hl
  have e := Start_stable w l l (le_refl _) (State.budget s + 1) d s url hd h
  rw [e]
  refine ⟨h, ?_⟩
  intro hrecv
  rcases h with h | h | h
  · exact Or.inl h
  · exact Or.inr h
  · exact absurd h (Start_blocked_only_if_unreceived w hrecv l _ s url)

theorem C10_start_terminates_within_budget_depth_witness :
    ∃ L, ∀ l ≥ L,
      (Start flakySite l 6 (newCrawler 5 false "https://x.com/".toList)
        "https://x.com/".toList).status = .returned ∨
      (Start flakySite l 6 (newCrawler 5 false "https://x.com/".toList)
        "https://x.com/".toList).status = .crashed :=
  (C10_start_terminates_within_budget_depth flakySite
    (newCrawler 5 false "https://x.com/".toList) "https://x.com/".toList).imp
    (fun _ h l hl => (h l hl 6 (by decide)).2 (fun _ => rfl))

end Crawler
